import Mathlib

/-!
# A verification model of `src/table.rs` (the piccolo Lua table core)

This file gives a shallow embedding in Lean 4 of the table data structure in
`src/table.rs`: the `Value` universe, key canonicalization, the array/map split
(`TableEntries`), and the operations `get`, `set`, `length`, `next`, together
with the metatable accessors of `Table`.

Modelling decisions (each noted again at the definition it concerns):

* `f64` is modelled by the inductive `F64`: NaN (all NaN bit patterns behave
  identically in this code, which never calls `to_bits` on a NaN), negative
  zero, the two infinities, and finite values as rationals.  The Rust casts
  `f64 as i64` (truncate toward zero, saturating, NaN ↦ 0) and `i64 as f64`
  (round to nearest, ties to even) are implemented exactly.
* `hashbrown::RawTable<(Value, Value)>` is modelled as a `List (Value × Value)`
  in bucket order, plus an explicit capacity counter.  The hash function is not
  modelled: `find(hash, eq)` is exactly a first-match search by `key_eq`
  (sound because `key_eq`-equal keys always have equal hashes in the source),
  and insertion of a fresh key places it at some unspecified bucket, which the
  list model represents by appending.  Capacities follow the source's
  `reserve` calls with exact (no rounding) growth, likewise the `Vec` growth of
  the array part reserves exactly the requested capacity.
* `usize` is 64 bits (`USIZE_BITS = 64`), matching the 64-bit hosts the
  crate targets; `i64` values are `Int`s, with the saturation points
  `± 2^63` written out explicitly where the source relies on them.
-/

/-! ## The float model -/

/-- Model of `f64` as used by `table.rs`: NaN (one value suffices: the code
never distinguishes NaN payloads), `-0.0`, the infinities, and finite values
as exact rationals (`fin 0` is `+0.0`). -/
inductive F64 where
  | nan : F64
  | negZero : F64
  | inf : F64
  | negInf : F64
  | fin : ℚ → F64
deriving DecidableEq, Repr

/-- `f64::is_nan`. -/
def F64.isNan : F64 → Bool
  | .nan => true
  | _ => false

/-- IEEE-754 `==` on `f64`: NaN is unequal to everything (itself included),
`-0.0 == 0.0`, and otherwise numeric equality. -/
def F64.ieeeEq : F64 → F64 → Bool
  | .nan, _ => false
  | _, .nan => false
  | .inf, .inf => true
  | .inf, _ => false
  | _, .inf => false
  | .negInf, .negInf => true
  | .negInf, _ => false
  | _, .negInf => false
  | .negZero, .negZero => true
  | .negZero, .fin q => q == 0
  | .fin q, .negZero => q == 0
  | .fin p, .fin q => p == q

/-- Truncation of a rational toward zero (the rounding used by Rust's
`f64 as i64` cast). -/
def ratTrunc (q : ℚ) : ℤ :=
  q.num.tdiv q.den

/-- Rust's saturating cast `f64 as i64`: truncate toward zero, saturate at the
`i64` range, NaN goes to `0`. -/
def F64.toI64 : F64 → ℤ
  | .nan => 0
  | .negZero => 0
  | .inf => 2 ^ 63 - 1
  | .negInf => -(2 ^ 63)
  | .fin q => max (-(2 ^ 63)) (min (2 ^ 63 - 1) (ratTrunc q))

/-- Rust's cast `i64 as f64`: round to the nearest representable double,
ties to even.  Exact for `|i| < 2^53`; above that the value is rounded to a
multiple of `2^e` where `2^(52+e) ≤ |i| < 2^(53+e)`.  No `i64` overflows to
infinity. -/
def i64ToF64 (i : ℤ) : F64 :=
  if i = 0 then .fin 0
  else
    let n := i.natAbs
    if n < 2 ^ 53 then .fin (i : ℚ)
    else
      let e := Nat.log2 n - 52
      let q := n / 2 ^ e
      let r := n % 2 ^ e
      let m :=
        if 2 * r > 2 ^ e then q + 1
        else if 2 * r < 2 ^ e then q
        else if q % 2 = 0 then q else q + 1
      let v : ℚ := (m : ℚ) * 2 ^ e
      .fin (if i < 0 then -v else v)

/-- `f64_to_i64` from `table.rs`: the closest `i64` to the given `f64` such
that casting back yields an (IEEE-) equal value, when it exists. -/
def f64_to_i64 (n : F64) : Option ℤ :=
  let i := n.toI64
  if (i64ToF64 i).ieeeEq n then some i else none

/-! ## Values and keys -/

/-- The `Value` universe of the runtime.  Reference variants (`string`,
`table`, `function`, `thread`, `userdata`) are carried as abstract handles
compared by identity, exactly as the source compares them by `Gc` pointer
identity (strings by interned content, which is still an equality on the
handle). -/
inductive Value where
  | nil : Value
  | boolean : Bool → Value
  | integer : ℤ → Value
  | number : F64 → Value
  | string : ℕ → Value
  | table : ℕ → Value
  | function : ℕ → Value
  | thread : ℕ → Value
  | userdata : ℕ → Value
deriving DecidableEq, Repr

/-- `Value::is_nil`. -/
def Value.isNil : Value → Bool
  | .nil => true
  | _ => false

/-- The `i64` range constraint the Rust type system imposes on
`Value::Integer` payloads.  `F64` junk values never influence the claims, so
only integers are constrained. -/
def Value.wf : Value → Prop
  | .integer i => -(2 ^ 63) ≤ i ∧ i < 2 ^ 63
  | _ => True

instance (v : Value) : Decidable v.wf := by
  cases v <;> simp [Value.wf] <;> infer_instance

/-- `InvalidTableKey` from `table.rs`. -/
inductive InvalidTableKey where
  | isNaN : InvalidTableKey
  | isNil : InvalidTableKey
deriving DecidableEq, Repr

/-- Decidable equality on `Except` results (for evaluating concrete `set`
calls). -/
instance {ε α : Type} [DecidableEq ε] [DecidableEq α] : DecidableEq (Except ε α) :=
  fun a b =>
    match a, b with
    | .error e1, .error e2 =>
      if h : e1 = e2 then isTrue (by rw [h]) else isFalse (fun he => h (by injection he))
    | .ok v1, .ok v2 =>
      if h : v1 = v2 then isTrue (by rw [h]) else isFalse (fun he => h (by injection he))
    | .error _, .ok _ => isFalse (fun he => Except.noConfusion he)
    | .ok _, .error _ => isFalse (fun he => Except.noConfusion he)

/-- `canonical_key` from `table.rs`: reject `Nil` and NaN, fold
integer-valued floats to integers, pass everything else through. -/
def canonical_key (value : Value) : Except InvalidTableKey Value :=
  match value with
  | .nil => .error .isNil
  | .number n =>
    if n.isNan then .error .isNaN
    else
      match f64_to_i64 n with
      | some i => .ok (.integer i)
      | none => .ok (.number n)
  | v => .ok v

/-- `key_eq` from `table.rs`: by-variant structural equality, with IEEE `==`
on floats; distinct variants are unequal. -/
def key_eq (a b : Value) : Bool :=
  match a, b with
  | .nil, .nil => true
  | .boolean a, .boolean b => a == b
  | .integer a, .integer b => a == b
  | .number a, .number b => a.ieeeEq b
  | .string a, .string b => a == b
  | .table a, .table b => a == b
  | .function a, .function b => a == b
  | .thread a, .thread b => a == b
  | .userdata a, .userdata b => a == b
  | _, _ => false

/-- `to_array_index` from `table.rs`: an integral key between `1` and
`usize::MAX` yields the 0-based array index.  (On the modelled 64-bit host,
`usize::try_from` never fails for a positive `i64`.) -/
def to_array_index (key : Value) : Option ℕ :=
  match key with
  | .integer i => if i > 0 then some (i - 1).toNat else none
  | .number f =>
    match f64_to_i64 f with
    | some i => if i > 0 then some (i - 1).toNat else none
    | none => none
  | _ => none

/-- The `LOG_2` byte table in `table.rs` (256 entries: `0` at index `0`,
otherwise `⌊log2 i⌋ + 1`), written as the equivalent range cascade. -/
def log2Byte (i : ℕ) : ℕ :=
  if i = 0 then 0
  else if i < 2 then 1
  else if i < 4 then 2
  else if i < 8 then 3
  else if i < 16 then 4
  else if i < 32 then 5
  else if i < 64 then 6
  else if i < 128 then 7
  else 8

/-- The byte-shift loop of `highest_bit` (`while i >= 256 { hb += 8; i >>= 8 }`).
The loop runs at most `⌈64 / 8⌉ = 8` times for a `usize`, so it is written
structurally on that iteration bound; with fuel `8` it never runs out for
`i < 2^64`. -/
def highest_bit_aux : ℕ → ℕ → ℕ
  | 0, i => log2Byte i
  | fuel + 1, i => if i < 256 then log2Byte i else 8 + highest_bit_aux fuel (i / 256)

/-- `highest_bit` from `table.rs`: the byte-shift loop over the `LOG_2`
table. -/
def highest_bit (i : ℕ) : ℕ :=
  highest_bit_aux 8 i

/-! ## The map part: `RawTable<(Value, Value)>` as a bucket-ordered list -/

/-- `table_insert` from `table.rs` on the list model: replace the value of the
first `key_eq`-matching entry (keeping the stored key), returning the displaced
value; otherwise add the pair at a fresh bucket (modelled by appending). -/
def tableInsert (map : List (Value × Value)) (key value : Value) :
    Option Value × List (Value × Value) :=
  match map with
  | [] => (none, [(key, value)])
  | (k, v) :: rest =>
    if key_eq k key then (some v, (k, value) :: rest)
    else
      let r := tableInsert rest key value
      (r.1, (k, v) :: r.2)

/-- `table_remove` from `table.rs` on the list model: remove the first
`key_eq`-matching entry, returning its value. -/
def tableRemove (map : List (Value × Value)) (key : Value) :
    Option Value × List (Value × Value) :=
  match map with
  | [] => (none, [])
  | (k, v) :: rest =>
    if key_eq k key then (some v, rest)
    else
      let r := tableRemove rest key
      (r.1, (k, v) :: r.2)

/-- The `table_retain` sweep inside `set`'s growth branch: walk the map in
bucket order; move every entry whose key has an array index inside the
(fixed-length) array into its slot and drop it from the map. -/
def moveToArray (array : List Value) (map : List (Value × Value)) :
    List Value × List (Value × Value) :=
  match map with
  | [] => (array, [])
  | (k, v) :: rest =>
    match to_array_index k with
    | some i =>
      if i < array.length then moveToArray (array.set i v) rest
      else
        let r := moveToArray array rest
        (r.1, (k, v) :: r.2)
    | none =>
      let r := moveToArray array rest
      (r.1, (k, v) :: r.2)

/-- `TableEntries` from `table.rs`.  `mapCapacity` is the `RawTable`
capacity; `array` capacity is taken as exactly its length (the model's `Vec`
reserves exactly what is requested). -/
structure TableEntries where
  array : List Value
  map : List (Value × Value)
  mapCapacity : ℕ
deriving DecidableEq, Repr

/-- `TableEntries::get`. -/
def TableEntries.get (t : TableEntries) (key : Value) : Value :=
  let fromMap :=
    match canonical_key key with
    | .ok k =>
      match t.map.find? (fun p => key_eq k p.1) with
      | some p => p.2
      | none => .nil
    | .error _ => .nil
  match to_array_index key with
  | some index =>
    if index < t.array.length then t.array.getD index .nil else fromMap
  | none => fromMap

/-- The map-part lookup that `get` performs on the canonical key. -/
def mapGet (m : List (Value × Value)) (k : Value) : Value :=
  match m.find? (fun p => key_eq k p.1) with
  | some p => p.2
  | none => .nil

/-- The candidate array indices counted by `set`'s rebalance: non-Nil entries
of the array part, array-eligible keys of the map part, and the incoming key
when it is array-eligible.  (The source tallies exactly these, binned by
`highest_bit`.) -/
def candidateIndices (t : TableEntries) (indexKey : Option ℕ) : List ℕ :=
  (List.range t.array.length).filter (fun i => !(t.array.getD i .nil).isNil)
    ++ t.map.filterMap (fun p => to_array_index p.1)
    ++ (match indexKey with | some i => [i] | none => [])

/-- One bin of the source's `array_counts`: how many candidate indices have
the given `highest_bit`. -/
def binCount (idxs : List ℕ) (b : ℕ) : ℕ :=
  (idxs.filter (fun i => highest_bit i = b)).length

/-- The optimal-size scan of `set`'s rebalance (`for i in 0..USIZE_BITS`),
with the running total and current best size accumulated, written structurally
on the number of remaining iterations (`USIZE_BITS = 64` at the call site). -/
def optimalSizeAux (idxs : List ℕ) : ℕ → ℕ → ℕ → ℕ → ℕ
  | 0, _, _, opt => opt
  | fuel + 1, i, total, opt =>
    if 2 ^ i / 2 ≥ idxs.length then opt
    else if binCount idxs i > 0 then
      let total1 := total + binCount idxs i
      optimalSizeAux idxs fuel (i + 1) total1 (if total1 > 2 ^ i / 2 then 2 ^ i else opt)
    else optimalSizeAux idxs fuel (i + 1) total opt

/-- The rebalance's chosen `optimal_size` for a given candidate list. -/
def optimalSize (idxs : List ℕ) : ℕ :=
  optimalSizeAux idxs 64 0 0 0

/-- The growth step of `set`'s rebalance: if the optimal size beats the
current array length, extend the array with `Nil` (the model's `Vec` reserves
exactly the requested capacity) and sweep newly array-eligible map entries
into it; otherwise double the map's capacity (`reserve(old_map_size)` with
exact growth). -/
def rebalanced (t : TableEntries) (indexKey : Option ℕ) : TableEntries :=
  let optSize := optimalSize (candidateIndices t indexKey)
  if optSize > t.array.length then
    let array1 := t.array ++ List.replicate (optSize - t.array.length) Value.nil
    let r := moveToArray array1 t.map
    { t with array := r.1, map := r.2 }
  else
    { t with mapCapacity := 2 * t.map.length }

/-- The slow path of `TableEntries::set`, after the array fast path has been
skipped and the key canonicalized (hence total): remove on a `Nil` value,
insert into spare map capacity, or rebalance and re-attempt the insertion. -/
def TableEntries.setSlow (t : TableEntries) (indexKey : Option ℕ) (tableKey value : Value) :
    Value × TableEntries :=
  if value.isNil then
    let r := tableRemove t.map tableKey
    (r.1.getD .nil, { t with map := r.2 })
  else if t.map.length < t.mapCapacity then
    let r := tableInsert t.map tableKey value
    (r.1.getD .nil, { t with map := r.2 })
  else
    let grown := rebalanced t indexKey
    if _hidx2 : ∃ index ∈ indexKey, index < grown.array.length then
      let index := indexKey.getD 0
      (grown.array.getD index .nil, { grown with array := grown.array.set index value })
    else
      let r := tableInsert grown.map tableKey value
      (r.1.getD .nil, { grown with map := r.2, mapCapacity := max grown.mapCapacity r.2.length })

/-- `TableEntries::set`.  Returns the displaced value together with the new
table state; Rust's in-place mutation becomes explicit state passing, and the
validation error is returned before any state is built, exactly as the source
returns through `?` before mutating anything. -/
def TableEntries.set (t : TableEntries) (key value : Value) :
    Except InvalidTableKey (Value × TableEntries) :=
  let indexKey := to_array_index key
  if _hidx : ∃ index ∈ indexKey, index < t.array.length then
    let index := indexKey.getD 0
    .ok (t.array.getD index .nil, { t with array := t.array.set index value })
  else
    (canonical_key key).map (fun tableKey => t.setSlow indexKey tableKey value)

/-- The binary search inside `TableEntries::length`: maintains `is_nil max`
and (`min = 0` or `¬ is_nil min`), shrinking until `max - min ≤ 1`. -/
def binarySearch (isNil : ℤ → Bool) (min max : ℤ) : ℤ :=
  if h : max - min > 1 then
    let mid := min + (max - min) / 2
    if isNil mid then binarySearch isNil min mid
    else binarySearch isNil mid max
  else min
termination_by (max - min).toNat
decreasing_by
  · omega
  · omega

/-- Whether the map part contains the integer key `i` (the `find` probe used
by `length`). -/
def TableEntries.hasIntKey (t : TableEntries) (i : ℤ) : Bool :=
  (t.map.find? (fun p => key_eq (.integer i) p.1)).isSome

/-- The doubling loop of `TableEntries::length` hunting for an absent integer
key to use as the binary-search upper bound, saturating at `i64::MAX`.  It
returns the final `max`; the caller inspects whether `i64::MAX` was reached
while still present (the source's early `return i64::MAX`). -/
def findNilBound (hasKey : ℤ → Bool) (max : ℤ) : ℤ :=
  if hasKey max then
    if max ≥ 2 ^ 63 - 1 then 2 ^ 63 - 1
    else if 1 ≤ max ∧ 2 * max ≤ 2 ^ 63 - 1 then findNilBound hasKey (2 * max)
    else 2 ^ 63 - 1
  else max
termination_by (2 ^ 63 - max).toNat
decreasing_by
  omega

/-- `TableEntries::length`: a border search.  The three branches of the
source: a Nil at the end of the array, an all-dense array with empty map, and
the doubling-plus-binary-search in the map part. -/
def TableEntries.length (t : TableEntries) : ℤ :=
  let arrayLen : ℤ := t.array.length
  if t.array.length ≠ 0 ∧ (t.array.getD (t.array.length - 1) .nil).isNil then
    binarySearch (fun i => (t.array.getD (i - 1).toNat .nil).isNil) 0 arrayLen
  else if t.map.isEmpty then
    arrayLen
  else
    let bound := findNilBound t.hasIntKey (arrayLen + 1)
    if t.hasIntKey bound then bound
    else binarySearch (fun i => !t.hasIntKey i) arrayLen bound

/-- `NextValue` from `table.rs`. -/
inductive NextValue where
  | found : Value → Value → NextValue
  | last : NextValue
  | notFound : NextValue
deriving DecidableEq, Repr

/-- The array scan of `next` (`for i in start_index..len`): the first non-Nil
entry of `l` together with its index, where `l` sits at offset `start` of the
array. -/
def firstNonNil : List Value → ℕ → Option (ℕ × Value)
  | [], _ => none
  | v :: rest, i => if v.isNil then firstNonNil rest (i + 1) else some (i, v)

/-- The map scan of `next` for a non-array key: find the key's bucket, then
return the next occupied bucket's pair (`none` = key absent,
`some none` = key present with no successor). -/
def mapNextAfter : List (Value × Value) → Value → Option (Option (Value × Value))
  | [], _ => none
  | (k, _) :: rest, key =>
    if key_eq k key then some rest.head?
    else mapNextAfter rest key

/-- `TableEntries::next`. -/
def TableEntries.next (t : TableEntries) (key : Value) : NextValue :=
  let arrayResult : Option (ℕ × Bool) :=
    match to_array_index key with
    | some indexKey =>
      if indexKey < t.array.length then
        some (indexKey + 1, (t.array.getD indexKey .nil).isNil)
      else none
    | none => if key.isNil then some (0, false) else none
  match arrayResult with
  | some se =>
    match firstNonNil (t.array.drop se.1) se.1 with
    | some iv => .found (.integer ((iv.1 : ℤ) + 1)) iv.2
    | none =>
      if se.2 then .notFound
      else
        match t.map.head? with
        | some p => .found p.1 p.2
        | none => .last
  | none =>
    match canonical_key key with
    | .ok tableKey =>
      match mapNextAfter t.map tableKey with
      | some (some p) => .found p.1 p.2
      | some none => .last
      | none => .notFound
    | .error _ => .notFound

/-! ## The `Table` wrapper: entries plus metatable -/

/-- `TableState` from `table.rs`; the metatable is an abstract table handle. -/
structure TableState where
  entries : TableEntries
  metatable : Option ℕ
deriving DecidableEq, Repr

/-- `Table::new`: fresh empty state (`TableState::default`). -/
def Table.new : TableState :=
  { entries := { array := [], map := [], mapCapacity := 0 }, metatable := none }

/-- `Table::set_metatable`: `mem::replace` on the metatable field. -/
def Table.set_metatable (s : TableState) (m : Option ℕ) : Option ℕ × TableState :=
  (s.metatable, { s with metatable := m })

/-- The mutating operations a caller can perform on a table.  `get`, `length`,
`next` and `metatable` borrow the state immutably in the source and are pure
functions here, so they do not appear as state transitions. -/
inductive TableOp where
  | set : Value → Value → TableOp
  | setMetatable : Option ℕ → TableOp

/-- Keys and values crossing the API are well formed (`i64` payloads), which
the Rust type system guarantees. -/
def TableOp.wf : TableOp → Prop
  | .set k v => k.wf ∧ v.wf
  | .setMetatable _ => True

instance (op : TableOp) : Decidable op.wf := by
  cases op <;> simp [TableOp.wf] <;> infer_instance

/-- Apply one mutating operation; a failed `set` leaves the state unchanged
(the source errors out of `set` before any mutation). -/
def applyOp (s : TableState) (op : TableOp) : TableState :=
  match op with
  | .set k v =>
    match s.entries.set k v with
    | .ok r => { s with entries := r.2 }
    | .error _ => s
  | .setMetatable m => (Table.set_metatable s m).2

/-- States reachable from `Table::new` by API calls (only `set` and
`set_metatable` mutate; the reading operations are pure). -/
inductive Reachable : TableState → Prop where
  | new : Reachable Table.new
  | step {s : TableState} (op : TableOp) : Reachable s → op.wf → Reachable (applyOp s op)

/-! ## Derived description of the data (used to state the claims) -/

/-- The non-Nil entries of the array part from offset `i` on, as
`(0-based index, value)` pairs in ascending order. -/
def pairsAux : List Value → ℕ → List (ℕ × Value)
  | [], _ => []
  | v :: rest, i =>
    if v.isNil then pairsAux rest (i + 1) else (i, v) :: pairsAux rest (i + 1)

/-- The traversal sequence of a table: the non-Nil array entries under their
user-visible integer keys, in ascending index order, followed by the map part
in bucket order. -/
def iterSeq (t : TableEntries) : List (Value × Value) :=
  (pairsAux t.array 0).map (fun p => (Value.integer ((p.1 : ℤ) + 1), p.2)) ++ t.map

/-- Iterating `next` from a key, collecting the visited pairs (stops when
`next` does not return `Found`). -/
def nextChain (t : TableEntries) : ℕ → Value → List (Value × Value)
  | 0, _ => []
  | fuel + 1, k =>
    match t.next k with
    | .found k2 v2 => (k2, v2) :: nextChain t fuel k2
    | _ => []

/-- Whether strictly more than half of the `2^k` slots of an array of length
`2^k` would be occupied by the candidate indices (the quantity §4.4 of the
spec maximizes). -/
def qualifies (idxs : List ℕ) (k : ℕ) : Bool :=
  2 ^ k / 2 < (idxs.filter (fun i => i < 2 ^ k)).length

/-- `n` is the largest power of two `2^k` such that strictly more than half
of `2^k` array slots would be occupied by the candidates (`0` when no power
of two qualifies) — the optimal size as the spec describes it. -/
def IsLargestQualifying (idxs : List ℕ) (n : ℕ) : Prop :=
  (n = 0 ∧ ∀ k, qualifies idxs k = false)
    ∨ (∃ k, n = 2 ^ k ∧ qualifies idxs k = true ∧ ∀ j, k < j → qualifies idxs j = false)

/-- A reachable table whose map is full at capacity and already holds the
integer key `1` while the array part is empty (built by inserting three
string keys and then key `1`).  Re-inserting key `1` triggers a rebalance in
which the new key is counted although an equal key is already counted from
the map, so index `0` is tallied twice. -/
def sampleDupTable : TableEntries :=
  { array := [],
    map := [(.string 0, .boolean true), (.string 1, .boolean true),
      (.string 2, .boolean true), (.integer 1, .boolean true)],
    mapCapacity := 4 }

/-! ## Basic facts about keys and canonicalization -/

theorem F64.ieeeEq_refl {n : F64} (h : n.isNan = false) : n.ieeeEq n = true := by
  cases n <;> simp_all [F64.ieeeEq, F64.isNan]

theorem F64.ieeeEq_symm (a b : F64) : a.ieeeEq b = b.ieeeEq a := by
  cases a <;> cases b <;> simp [F64.ieeeEq] <;>
    first
      | rfl
      | (rename_i p q; by_cases h : p = q <;> simp [h]; exact fun h2 => (h h2.symm).elim)

theorem key_eq_symm (a b : Value) : key_eq a b = key_eq b a := by
  cases a <;> cases b <;> simp [key_eq] <;>
    first
      | rfl
      | apply F64.ieeeEq_symm
      | (rename_i p q; by_cases h : p = q <;> simp [h]; exact fun h2 => (h h2.symm).elim)

theorem canonical_key_idem {v k : Value} (h : canonical_key v = .ok k) :
    canonical_key k = .ok k := by
  cases v <;> simp [canonical_key] at h <;> try simp [h.symm, canonical_key]
  case number n =>
    rcases hn : n.isNan with _ | _
    · rcases hi : f64_to_i64 n with _ | i <;> simp [hn, hi] at h <;>
        simp [h.symm, canonical_key, hn, hi]
    · simp [hn] at h

theorem canonical_key_not_nan {v : Value} {f : F64} (h : canonical_key v = .ok (.number f)) :
    f.isNan = false := by
  cases v <;> simp [canonical_key] at h
  case number n =>
    rcases hn : n.isNan with _ | _
    · rcases hi : f64_to_i64 n with _ | i <;> simp [hn, hi] at h
      subst h
      exact hn
    · simp [hn] at h

theorem key_eq_refl_of_canonical {v k : Value} (h : canonical_key v = .ok k) :
    key_eq k k = true := by
  have hk := canonical_key_idem h
  have hnil : k ≠ .nil := by
    intro he
    subst he
    simp [canonical_key] at hk
  cases k <;> simp [key_eq] at *
  case number f => exact F64.ieeeEq_refl (canonical_key_not_nan hk)

/-- For canonical keys, `key_eq` coincides with equality.  (The only
`key_eq`-equal-but-distinct values are NaNs — never equal — and the float
representations of one number, which canonicalization collapses.) -/
theorem eq_of_key_eq_canonical {a b : Value} (ha : canonical_key a = .ok a)
    (hb : canonical_key b = .ok b) (h : key_eq a b = true) : a = b := by
  cases a <;> cases b <;> simp_all [key_eq]
  case number.number f g =>
    have hfn : f.isNan = false := canonical_key_not_nan ha
    have hgn : g.isNan = false := canonical_key_not_nan hb
    have hf0 : f64_to_i64 f = none := by
      simp [canonical_key, hfn] at ha
      rcases hi : f64_to_i64 f with _ | i <;> simp [hi] at ha <;> rfl
    have hg0 : f64_to_i64 g = none := by
      simp [canonical_key, hgn] at hb
      rcases hi : f64_to_i64 g with _ | i <;> simp [hi] at hb <;> rfl
    cases f <;> cases g <;> simp_all [F64.ieeeEq, F64.isNan] <;>
      simp [f64_to_i64, F64.toI64, ratTrunc, i64ToF64, F64.ieeeEq] at hf0 hg0

theorem to_array_index_canonical {a k : Value} (h : canonical_key a = .ok k) :
    to_array_index a = to_array_index k := by
  cases a <;> simp [canonical_key] at h <;> try simp [h.symm]
  case number n =>
    rcases hn : n.isNan with _ | _
    · rcases hi : f64_to_i64 n with _ | i <;> simp [hn, hi] at h <;>
        simp [h.symm, to_array_index, hi]
    · simp [hn] at h

/-- A canonical key with an array index is exactly the integer key
`index + 1` (canonical floats never fold to integers, so they have no array
index). -/
theorem canonical_of_array_index {k : Value} {idx : ℕ}
    (hc : canonical_key k = .ok k) (hi : to_array_index k = some idx) :
    k = .integer ((idx : ℤ) + 1) := by
  cases k <;> simp [to_array_index] at hi
  case integer i =>
    rcases hi with ⟨h1, h2⟩
    have : i = (idx : ℤ) + 1 := by omega
    simp [this]
  case number f =>
    rcases hf : f64_to_i64 f with _ | i
    · simp [hf] at hi
    · have hfn : f.isNan = false := canonical_key_not_nan hc
      simp [canonical_key, hfn, hf] at hc

theorem to_array_index_integer {i : ℤ} :
    to_array_index (.integer i) = if i > 0 then some (i - 1).toNat else none := rfl

/-! ## The structural invariant of `TableEntries` -/

/-- The invariant every reachable table satisfies (§3 of the spec): map
values are never `Nil`, map keys are canonical, pairwise `key_eq`-distinct,
integer map keys `i ≥ 1` lie strictly beyond the array part, and keys are
well-formed `i64` data. -/
structure TableInv (t : TableEntries) : Prop where
  valuesNonNil : ∀ p ∈ t.map, p.2 ≠ Value.nil
  keysCanonical : ∀ p ∈ t.map, canonical_key p.1 = .ok p.1
  keysNoDup : t.map.Pairwise (fun p q => key_eq p.1 q.1 = false)
  intKeysBeyond : ∀ p ∈ t.map, ∀ i : ℤ, p.1 = .integer i → 1 ≤ i → (t.array.length : ℤ) < i
  keysWf : ∀ p ∈ t.map, p.1.wf

theorem tableInv_new : TableInv { array := [], map := [], mapCapacity := 0 } := by
  constructor <;> simp

/-! ## Lemmas about the map primitives -/

theorem F64.ieeeEq_trans {a b c : F64} (h1 : a.ieeeEq b = true) (h2 : b.ieeeEq c = true) :
    a.ieeeEq c = true := by
  cases a <;> cases b <;> cases c <;> simp_all [F64.ieeeEq]

theorem key_eq_trans {a b c : Value} (h1 : key_eq a b = true) (h2 : key_eq b c = true) :
    key_eq a c = true := by
  cases a <;> cases b <;> simp_all [key_eq] <;> cases c <;> simp_all [key_eq]
  all_goals exact F64.ieeeEq_trans (by assumption) (by assumption)

theorem tableRemove_sublist (m : List (Value × Value)) (k : Value) :
    (tableRemove m k).2.Sublist m := by
  induction m with
  | nil => simp [tableRemove]
  | cons p rest ih =>
    obtain ⟨k0, v0⟩ := p
    by_cases h : key_eq k0 k = true
    · simp [tableRemove, h]
    · simp [tableRemove, h]
      exact ih

/-- After removing `k` from a pairwise-distinct map, no entry matches `k`
any more. -/
theorem tableRemove_find?_none {m : List (Value × Value)} {k : Value}
    (hnd : m.Pairwise (fun p q => key_eq p.1 q.1 = false)) :
    (tableRemove m k).2.find? (fun p => key_eq k p.1) = none := by
  induction m with
  | nil => simp [tableRemove]
  | cons p rest ih =>
    obtain ⟨k0, v0⟩ := p
    rw [List.pairwise_cons] at hnd
    by_cases h : key_eq k0 k = true
    · simp only [tableRemove, h, if_true]
      rw [List.find?_eq_none]
      intro q hq hqk
      have h1 : key_eq k0 q.1 = true := key_eq_trans h hqk
      have h2 := hnd.1 q hq
      simp [h1] at h2
    · have hb : key_eq k0 k = false := by simpa using h
      have h2 : (key_eq k (k0, v0).1 : Bool) = false := by
        rw [key_eq_symm]
        simpa using h
      simp only [tableRemove, hb, Bool.false_eq_true, if_false]
      rw [List.find?_cons_of_neg _ (by simp [h2])]
      exact ih hnd.2

/-- Every entry of the map after an insert is either an old entry, or carries
the new value under either the inserted key or an old key. -/
theorem tableInsert_mem {m : List (Value × Value)} {k v : Value} {p : Value × Value}
    (hp : p ∈ (tableInsert m k v).2) :
    p ∈ m ∨ (p.2 = v ∧ (p.1 = k ∨ ∃ w, (p.1, w) ∈ m)) := by
  induction m with
  | nil =>
    simp [tableInsert] at hp
    subst hp
    simp
  | cons q rest ih =>
    obtain ⟨k0, v0⟩ := q
    by_cases h : key_eq k0 k = true
    · simp [tableInsert, h] at hp
      rcases hp with hp | hp
      · subst hp
        right
        exact ⟨rfl, .inr ⟨v0, by simp⟩⟩
      · exact .inl (by simp [hp])
    · have hb : key_eq k0 k = false := by simpa using h
      simp [tableInsert, hb] at hp
      rcases hp with hp | hp
      · exact .inl (by simp [hp])
      · rcases ih hp with h1 | ⟨h1, h2⟩
        · exact .inl (by simp [h1])
        · refine .inr ⟨h1, ?_⟩
          rcases h2 with h2 | ⟨w, hw⟩
          · exact .inl h2
          · exact .inr ⟨w, by simp [hw]⟩

/-- Looking up the inserted key finds the new value (the stored key is the
matching one that was already present, or the key itself). -/
theorem tableInsert_find?_self {m : List (Value × Value)} {k v : Value}
    (hk : key_eq k k = true) :
    ∃ k0, key_eq k0 k = true ∧
      (tableInsert m k v).2.find? (fun p => key_eq k p.1) = some (k0, v) := by
  induction m with
  | nil => exact ⟨k, hk, by simp [tableInsert, hk]⟩
  | cons q rest ih =>
    obtain ⟨k1, v1⟩ := q
    by_cases h : key_eq k1 k = true
    · refine ⟨k1, h, ?_⟩
      have h2 : key_eq k k1 = true := by
        rw [key_eq_symm]
        exact h
      simp [tableInsert, h, List.find?_cons, h2]
    · have hb : key_eq k1 k = false := by simpa using h
      have h2 : (key_eq k k1 : Bool) = false := by
        rw [key_eq_symm]
        exact hb
      obtain ⟨k0, hk0, hfind⟩ := ih
      refine ⟨k0, hk0, ?_⟩
      simp only [tableInsert, hb, Bool.false_eq_true, if_false]
      rw [List.find?_cons_of_neg _ (by simp [h2])]
      exact hfind

/-- Inserting preserves pairwise `key_eq`-distinctness of the map keys. -/
theorem tableInsert_pairwise {m : List (Value × Value)} {k v : Value}
    (hm : m.Pairwise (fun p q => key_eq p.1 q.1 = false)) :
    (tableInsert m k v).2.Pairwise (fun p q => key_eq p.1 q.1 = false) := by
  induction m with
  | nil => simp [tableInsert]
  | cons q rest ih =>
    obtain ⟨k1, v1⟩ := q
    rw [List.pairwise_cons] at hm
    by_cases h : key_eq k1 k = true
    · simp only [tableInsert, h, if_true]
      rw [List.pairwise_cons]
      exact ⟨fun q hq => hm.1 q hq, hm.2⟩
    · have hb : key_eq k1 k = false := by simpa using h
      simp only [tableInsert, hb, Bool.false_eq_true, if_false]
      rw [List.pairwise_cons]
      refine ⟨?_, ih hm.2⟩
      intro q hq
      rcases tableInsert_mem hq with h1 | ⟨_, h2⟩
      · exact hm.1 q h1
      · rcases h2 with h2 | ⟨w, hw⟩
        · rw [h2]
          exact hb
        · exact hm.1 (q.1, w) hw

/-- The sweep fixes the array's length. -/
theorem moveToArray_length (a : List Value) (m : List (Value × Value)) :
    (moveToArray a m).1.length = a.length := by
  induction m generalizing a with
  | nil => simp [moveToArray]
  | cons p rest ih =>
    obtain ⟨k, v⟩ := p
    simp only [moveToArray]
    rcases hk : to_array_index k with _ | i
    · simpa using ih a
    · by_cases hi : i < a.length
      · simp only [hi, if_true]
        rw [ih]
        simp
      · simp only [hi, if_false]
        simpa using ih a

theorem moveToArray_map_sublist (a : List Value) (m : List (Value × Value)) :
    (moveToArray a m).2.Sublist m := by
  induction m generalizing a with
  | nil => simp [moveToArray]
  | cons p rest ih =>
    obtain ⟨k, v⟩ := p
    simp only [moveToArray]
    rcases hk : to_array_index k with _ | i
    · exact (ih a).cons₂ _
    · by_cases hi : i < a.length
      · simp only [hi, if_true]
        exact (ih _).cons _
      · simp only [hi, if_false]
        exact (ih a).cons₂ _

/-- Entries remaining in the map after the sweep do not fit the array. -/
theorem moveToArray_map_beyond {a : List Value} {m : List (Value × Value)}
    {p : Value × Value} (hp : p ∈ (moveToArray a m).2) :
    ∀ i, to_array_index p.1 = some i → ¬i < a.length := by
  induction m generalizing a with
  | nil => simp [moveToArray] at hp
  | cons q rest ih =>
    obtain ⟨k, v⟩ := q
    simp only [moveToArray] at hp
    rcases hk : to_array_index k with _ | i
    · simp [hk] at hp
      rcases hp with hp | hp
      · intro i hi
        rw [hp] at hi
        simp at hi
        rw [hk] at hi
        cases hi
      · exact ih hp
    · simp only [hk] at hp
      by_cases hi : i < a.length
      · simp only [hi, if_true] at hp
        intro j hj
        have := ih hp j hj
        simpa [List.length_set] using this
      · simp only [hi, if_false] at hp
        simp at hp
        rcases hp with hp | hp
        · intro j hj
          rw [hp] at hj
          simp at hj
          rw [hk] at hj
          cases hj
          exact hi
        · exact ih hp


/-! ## A case analysis for `set` -/

theorem isNil_iff {v : Value} : v.isNil = true ↔ v = .nil := by
  cases v <;> simp [Value.isNil]

theorem set_fast {t : TableEntries} {key : Value} {idx : ℕ}
    (hidx : to_array_index key = some idx) (hlt : idx < t.array.length) (value : Value) :
    t.set key value =
      .ok (t.array.getD idx .nil, { t with array := t.array.set idx value }) := by
  unfold TableEntries.set
  rw [dif_pos (by exact ⟨idx, by simp [hidx], hlt⟩)]
  simp [hidx]

theorem set_slow {t : TableEntries} {key : Value}
    (hidx : ∀ idx ∈ to_array_index key, ¬idx < t.array.length) (value : Value) :
    t.set key value =
      (canonical_key key).map
        (fun tableKey => t.setSlow (to_array_index key) tableKey value) := by
  unfold TableEntries.set
  rw [dif_neg]
  rintro ⟨idx, h1, h2⟩
  exact hidx idx h1 h2

/-- The shape of a successful slow-path `set`, following the source's control
flow: removal, insertion into spare capacity, or rebalance followed by the
re-attempted insert (into the grown array or into the map). -/
theorem setSlow_cases (t : TableEntries) (indexKey : Option ℕ) (tableKey value : Value) :
    (value = .nil ∧
        t.setSlow indexKey tableKey value =
          ((tableRemove t.map tableKey).1.getD .nil,
            { t with map := (tableRemove t.map tableKey).2 }))
    ∨ (value ≠ .nil ∧ t.map.length < t.mapCapacity ∧
        t.setSlow indexKey tableKey value =
          ((tableInsert t.map tableKey value).1.getD .nil,
            { t with map := (tableInsert t.map tableKey value).2 }))
    ∨ (value ≠ .nil ∧ ¬t.map.length < t.mapCapacity ∧
        ((∃ idx, indexKey = some idx ∧ idx < (rebalanced t indexKey).array.length ∧
            t.setSlow indexKey tableKey value =
              ((rebalanced t indexKey).array.getD idx .nil,
                { rebalanced t indexKey with
                  array := (rebalanced t indexKey).array.set idx value }))
          ∨ ((∀ idx ∈ indexKey, ¬idx < (rebalanced t indexKey).array.length) ∧
              t.setSlow indexKey tableKey value =
                ((tableInsert (rebalanced t indexKey).map tableKey value).1.getD .nil,
                  { rebalanced t indexKey with
                    map := (tableInsert (rebalanced t indexKey).map tableKey value).2,
                    mapCapacity :=
                      max (rebalanced t indexKey).mapCapacity
                        (tableInsert (rebalanced t indexKey).map tableKey value).2.length })))) := by
  by_cases hnil : value.isNil = true
  · exact .inl ⟨isNil_iff.mp hnil, by unfold TableEntries.setSlow; rw [if_pos hnil]⟩
  · have hvne : value ≠ .nil := fun he => hnil (isNil_iff.mpr he)
    by_cases hcap : t.map.length < t.mapCapacity
    · refine .inr (.inl ⟨hvne, hcap, ?_⟩)
      unfold TableEntries.setSlow
      rw [if_neg hnil, if_pos hcap]
    · refine .inr (.inr ⟨hvne, hcap, ?_⟩)
      by_cases h2 : ∃ index ∈ indexKey, index < (rebalanced t indexKey).array.length
      · left
        obtain ⟨idx, h1, hlt⟩ := h2
        refine ⟨idx, h1, hlt, ?_⟩
        unfold TableEntries.setSlow
        rw [if_neg hnil, if_neg hcap, dif_pos ⟨idx, h1, hlt⟩]
        rcases indexKey with _ | j
        · cases h1
        · simp at h1
          subst h1
          simp
      · right
        refine ⟨fun idx h1 hlt => h2 ⟨idx, h1, hlt⟩, ?_⟩
        unfold TableEntries.setSlow
        rw [if_neg hnil, if_neg hcap, dif_neg h2]

/-- An invalid key (`Nil` or NaN) has no array index. -/
theorem to_array_index_none_of_error {key : Value} {e : InvalidTableKey}
    (hc : canonical_key key = .error e) : to_array_index key = none := by
  cases key <;> simp [canonical_key] at hc <;> simp [to_array_index]
  case number n =>
    rcases hn : n.isNan with _ | _
    · rcases hi : f64_to_i64 n with _ | i <;> simp [hn, hi] at hc
    · simp [f64_to_i64] at hn ⊢
      cases n <;> simp_all [F64.isNan, i64ToF64, F64.toI64, F64.ieeeEq]

/-- `set` fails exactly when canonicalization fails (`Nil` and NaN keys have
no array index, so the fast path never hides the failure). -/
theorem set_error_iff {t : TableEntries} {key value : Value} {e : InvalidTableKey} :
    t.set key value = .error e ↔ canonical_key key = .error e := by
  constructor
  · intro h
    unfold TableEntries.set at h
    by_cases h1 : ∃ index ∈ to_array_index key, index < t.array.length
    · rw [dif_pos h1] at h
      cases h
    · rw [dif_neg h1] at h
      rcases hc : canonical_key key with e2 | tk <;> rw [hc] at h <;>
        simp [Except.map] at h
      rw [h]
  · intro h
    unfold TableEntries.set
    rw [dif_neg (by simp [to_array_index_none_of_error h]), h]
    rfl

theorem set_ok_elim {t : TableEntries} {key value old : Value} {t2 : TableEntries}
    (h : t.set key value = .ok (old, t2)) :
    (∃ idx, to_array_index key = some idx ∧ idx < t.array.length ∧
      old = t.array.getD idx .nil ∧ t2 = { t with array := t.array.set idx value })
    ∨ (∃ tk, canonical_key key = .ok tk ∧
        (∀ idx ∈ to_array_index key, ¬idx < t.array.length) ∧
        (old, t2) = t.setSlow (to_array_index key) tk value) := by
  by_cases h1 : ∃ index ∈ to_array_index key, index < t.array.length
  · left
    obtain ⟨idx, hidx, hlt⟩ := h1
    rw [Option.mem_def] at hidx
    rw [set_fast hidx hlt] at h
    injection h with h
    injection h with hold ht2
    exact ⟨idx, hidx, hlt, hold.symm, ht2.symm⟩
  · right
    have hnofit : ∀ idx ∈ to_array_index key, ¬idx < t.array.length :=
      fun idx h1a h2a => h1 ⟨idx, h1a, h2a⟩
    rw [set_slow hnofit] at h
    rcases hc : canonical_key key with e | tk <;> rw [hc] at h <;> simp [Except.map] at h
    exact ⟨tk, rfl, hnofit, by rw [← h]⟩

/-! ## Preservation of the invariant -/

theorem f64_to_i64_range {n : F64} {i : ℤ} (h : f64_to_i64 n = some i) :
    -(2 ^ 63) ≤ i ∧ i < 2 ^ 63 := by
  simp [f64_to_i64] at h
  rw [← h.2]
  cases n <;> simp [F64.toI64]

theorem canonical_key_wf {key tk : Value} (hw : key.wf) (h : canonical_key key = .ok tk) :
    tk.wf := by
  cases key <;> simp [canonical_key] at h <;> try simp [← h, Value.wf]
  · exact hw
  case number n =>
    rcases hn : n.isNan with _ | _
    · rcases hi : f64_to_i64 n with _ | i <;> simp [hn, hi] at h <;> simp [← h, Value.wf]
      exact f64_to_i64_range hi
    · simp [hn] at h

theorem tableInv_mk_arrayset {t : TableEntries} (hinv : TableInv t) (idx : ℕ) (v : Value)
    (c : ℕ) : TableInv { array := t.array.set idx v, map := t.map, mapCapacity := c } := by
  refine ⟨hinv.valuesNonNil, hinv.keysCanonical, hinv.keysNoDup, ?_, hinv.keysWf⟩
  intro p hp i hi h1
  have := hinv.intKeysBeyond p hp i hi h1
  simpa [List.length_set] using this

theorem tableInv_mk_sublist {t : TableEntries} (hinv : TableInv t)
    {m2 : List (Value × Value)} (hs : m2.Sublist t.map) (c : ℕ) :
    TableInv { array := t.array, map := m2, mapCapacity := c } := by
  refine ⟨?_, ?_, ?_, ?_, ?_⟩
  · exact fun p hp => hinv.valuesNonNil p (hs.mem hp)
  · exact fun p hp => hinv.keysCanonical p (hs.mem hp)
  · exact hinv.keysNoDup.sublist hs
  · exact fun p hp => hinv.intKeysBeyond p (hs.mem hp)
  · exact fun p hp => hinv.keysWf p (hs.mem hp)

theorem tableInv_mk_insert {t : TableEntries} (hinv : TableInv t) {tk value : Value}
    (hv : value ≠ .nil) (hc : canonical_key tk = .ok tk) (hw : tk.wf)
    (hbeyond : ∀ i : ℤ, tk = .integer i → 1 ≤ i → (t.array.length : ℤ) < i) (c : ℕ) :
    TableInv { array := t.array, map := (tableInsert t.map tk value).2, mapCapacity := c } := by
  refine ⟨?_, ?_, ?_, ?_, ?_⟩
  · intro p hp
    rcases tableInsert_mem hp with h1 | ⟨h1, _⟩
    · exact hinv.valuesNonNil p h1
    · rw [h1]
      exact hv
  · intro p hp
    rcases tableInsert_mem hp with h1 | ⟨_, h1 | ⟨w, hw2⟩⟩
    · exact hinv.keysCanonical p h1
    · rw [h1]
      exact hc
    · exact hinv.keysCanonical (p.1, w) hw2
  · exact tableInsert_pairwise hinv.keysNoDup
  · intro p hp i hi h1
    rcases tableInsert_mem hp with h2 | ⟨_, h2 | ⟨w, hw2⟩⟩
    · exact hinv.intKeysBeyond p h2 i hi h1
    · rw [h2] at hi
      exact hbeyond i hi h1
    · exact hinv.intKeysBeyond (p.1, w) hw2 i hi h1
  · intro p hp
    rcases tableInsert_mem hp with h1 | ⟨_, h1 | ⟨w, hw2⟩⟩
    · exact hinv.keysWf p h1
    · rw [h1]
      exact hw
    · exact hinv.keysWf (p.1, w) hw2

theorem rebalanced_array_length (t : TableEntries) (ik : Option ℕ) :
    (rebalanced t ik).array.length =
      max t.array.length (optimalSize (candidateIndices t ik)) := by
  unfold rebalanced
  by_cases h : optimalSize (candidateIndices t ik) > t.array.length
  · rw [if_pos h]
    simp [moveToArray_length]
    omega
  · rw [if_neg h]
    simp at h ⊢
    omega

theorem rebalanced_map_sublist (t : TableEntries) (ik : Option ℕ) :
    (rebalanced t ik).map.Sublist t.map := by
  unfold rebalanced
  by_cases h : optimalSize (candidateIndices t ik) > t.array.length
  · rw [if_pos h]
    exact moveToArray_map_sublist _ _
  · rw [if_neg h]

theorem tableInv_rebalanced {t : TableEntries} (hinv : TableInv t) (ik : Option ℕ) :
    TableInv (rebalanced t ik) := by
  unfold rebalanced
  by_cases h : optimalSize (candidateIndices t ik) > t.array.length
  · rw [if_pos h]
    have hs := moveToArray_map_sublist
      (t.array ++ List.replicate (optimalSize (candidateIndices t ik) - t.array.length) Value.nil)
      t.map
    refine ⟨?_, ?_, ?_, ?_, ?_⟩
    · exact fun p hp => hinv.valuesNonNil p (hs.mem hp)
    · exact fun p hp => hinv.keysCanonical p (hs.mem hp)
    · exact hinv.keysNoDup.sublist hs
    · intro p hp i hi h1
      have hidx : to_array_index p.1 = some (i - 1).toNat := by
        rw [hi, to_array_index_integer, if_pos (by omega)]
      have := moveToArray_map_beyond hp _ hidx
      rw [moveToArray_length]
      simp at this ⊢
      omega
    · exact fun p hp => hinv.keysWf p (hs.mem hp)
  · rw [if_neg h]
    exact ⟨hinv.valuesNonNil, hinv.keysCanonical, hinv.keysNoDup, hinv.intKeysBeyond,
      hinv.keysWf⟩

/-- A successful `set` preserves the table invariant. -/
theorem set_tableInv {t : TableEntries} {key value old : Value} {t2 : TableEntries}
    (hinv : TableInv t) (hw : key.wf) (h : t.set key value = .ok (old, t2)) :
    TableInv t2 := by
  rcases set_ok_elim h with ⟨idx, _, _, _, ht2⟩ | ⟨tk, hc, hnofit, hslow⟩
  · rw [ht2]
    exact tableInv_mk_arrayset hinv idx value t.mapCapacity
  · have hck : canonical_key tk = .ok tk := canonical_key_idem hc
    have hwtk : tk.wf := canonical_key_wf hw hc
    have hbeyond : ∀ i : ℤ, tk = .integer i → 1 ≤ i → (t.array.length : ℤ) < i := by
      intro i hi h1
      have hidx : to_array_index key = some (i - 1).toNat := by
        rw [to_array_index_canonical hc, hi, to_array_index_integer, if_pos (by omega)]
      have := hnofit _ (by rw [hidx]; exact rfl)
      omega
    rcases setSlow_cases t (to_array_index key) tk value with
        ⟨_, heq⟩ | ⟨hvne, _, heq⟩ | ⟨hvne, _, ⟨idx, hik, hlt, heq⟩ | ⟨hnofit2, heq⟩⟩ <;>
      rw [heq] at hslow <;> injection hslow with _ ht2 <;> rw [ht2]
    · exact tableInv_mk_sublist hinv (tableRemove_sublist t.map tk) t.mapCapacity
    · exact tableInv_mk_insert hinv hvne hck hwtk hbeyond t.mapCapacity
    · exact tableInv_mk_arrayset (tableInv_rebalanced hinv _) idx value _
    · have hinv2 := tableInv_rebalanced hinv (to_array_index key)
      have hbeyond2 : ∀ i : ℤ, tk = .integer i → 1 ≤ i →
          ((rebalanced t (to_array_index key)).array.length : ℤ) < i := by
        intro i hi h1
        have hidx : to_array_index key = some (i - 1).toNat := by
          rw [to_array_index_canonical hc, hi, to_array_index_integer, if_pos (by omega)]
        have := hnofit2 _ (by rw [hidx]; exact rfl)
        omega
      exact tableInv_mk_insert hinv2 hvne hck hwtk hbeyond2 _

/-- Reachable states satisfy the invariant. -/
theorem reachable_tableInv {s : TableState} (h : Reachable s) : TableInv s.entries := by
  induction h with
  | new => exact tableInv_new
  | @step s2 op hr hwf ih =>
    rcases op with ⟨k, v⟩ | m
    · rcases hs : s2.entries.set k v with e | r
      · simpa [applyOp, hs] using ih
      · obtain ⟨old, t2⟩ := r
        simpa [applyOp, hs] using set_tableInv ih hwf.1 hs
    · simpa [applyOp, Table.set_metatable] using ih

/-! ## Reading: equations for `get` -/

theorem get_fast {t : TableEntries} {key : Value} {idx : ℕ}
    (hidx : to_array_index key = some idx) (hlt : idx < t.array.length) :
    t.get key = t.array.getD idx .nil := by
  unfold TableEntries.get
  rw [hidx]
  simp [hlt]

theorem get_slow_ok {t : TableEntries} {key tk : Value}
    (hnofit : ∀ idx ∈ to_array_index key, ¬idx < t.array.length)
    (hc : canonical_key key = .ok tk) :
    t.get key = mapGet t.map tk := by
  unfold TableEntries.get
  rcases hi : to_array_index key with _ | idx
  · rw [hc]
    rfl
  · have := hnofit idx (by rw [hi]; exact rfl)
    simp only [this, if_false]
    rw [hc]
    rfl

theorem get_slow_error {t : TableEntries} {key : Value} {e : InvalidTableKey}
    (hc : canonical_key key = .error e) : t.get key = .nil := by
  unfold TableEntries.get
  rw [to_array_index_none_of_error hc, hc]

/-- After a successful `set`, reading the same key back gives the value just
written (`Nil` included: deletion reads back as `Nil`). -/
theorem get_after_set {t : TableEntries} {key value old : Value} {t2 : TableEntries}
    (hinv : TableInv t) (h : t.set key value = .ok (old, t2)) :
    t2.get key = value := by
  rcases set_ok_elim h with ⟨idx, hidx, hlt, _, ht2⟩ | ⟨tk, hc, hnofit, hslow⟩
  · subst ht2
    rw [get_fast hidx (by simpa using hlt)]
    simp [List.getD_eq_getElem?_getD, List.getElem?_set_self hlt]
  · have hkeq : key_eq tk tk = true := key_eq_refl_of_canonical hc
    rcases setSlow_cases t (to_array_index key) tk value with
        ⟨hv, heq⟩ | ⟨hvne, _, heq⟩ | ⟨hvne, _, ⟨idx, hik, hlt, heq⟩ | ⟨hnofit2, heq⟩⟩ <;>
      rw [heq] at hslow <;> injection hslow with _ ht2 <;> subst ht2
    · rw [get_slow_ok (t := { t with map := (tableRemove t.map tk).2 })
        (by simpa using hnofit) hc]
      unfold mapGet
      simp only
      rw [tableRemove_find?_none hinv.keysNoDup]
      rw [hv]
    · rw [get_slow_ok (t := { t with map := (tableInsert t.map tk value).2 })
        (by simpa using hnofit) hc]
      unfold mapGet
      simp only
      obtain ⟨k0, _, hfind⟩ := tableInsert_find?_self (m := t.map) (v := value) hkeq
      rw [hfind]
    · rw [get_fast hik]
      · simp [List.getD_eq_getElem?_getD, List.getElem?_set_self hlt]
      · simpa using hlt
    · rw [get_slow_ok (t := { rebalanced t (to_array_index key) with
          map := (tableInsert (rebalanced t (to_array_index key)).map tk value).2,
          mapCapacity := max (rebalanced t (to_array_index key)).mapCapacity
            (tableInsert (rebalanced t (to_array_index key)).map tk value).2.length })
          (by simpa using hnofit2) hc]
      unfold mapGet
      simp only
      obtain ⟨k0, _, hfind⟩ :=
        tableInsert_find?_self (m := (rebalanced t (to_array_index key)).map) (v := value) hkeq
      rw [hfind]

/-! ## The border search: `length` -/

theorem binarySearch_spec (isNil : ℤ → Bool) (min max : ℤ) (hlt : min < max) :
    min ≤ binarySearch isNil min max ∧ binarySearch isNil min max < max ∧
      (binarySearch isNil min max = min ∨ isNil (binarySearch isNil min max) = false) ∧
      (binarySearch isNil min max + 1 = max ∨
        isNil (binarySearch isNil min max + 1) = true) := by
  generalize hfuel : (max - min).toNat = n
  induction n using Nat.strong_induction_on generalizing min max with
  | _ n ih =>
    unfold binarySearch
    by_cases hgt : max - min > 1
    · rw [dif_pos hgt]
      by_cases hnil : isNil (min + (max - min) / 2) = true
      · rw [if_pos hnil]
        obtain ⟨a, b, c, d⟩ := ih ((min + (max - min) / 2 - min).toNat) (by omega) min
          (min + (max - min) / 2) (by omega) rfl
        refine ⟨a, by omega, c, ?_⟩
        rcases d with d | d
        · rw [d]
          exact .inr hnil
        · exact .inr d
      · rw [if_neg hnil]
        obtain ⟨a, b, c, d⟩ := ih ((max - (min + (max - min) / 2)).toNat) (by omega)
          (min + (max - min) / 2) max (by omega) rfl
        refine ⟨by omega, b, ?_, d⟩
        rcases c with c | c
        · rw [c]
          exact .inr (by simpa using hnil)
        · exact .inr c
    · rw [dif_neg hgt]
      exact ⟨le_refl _, hlt, .inl rfl, .inl (by omega)⟩

theorem findNilBound_spec (hasKey : ℤ → Bool) :
    ∀ m : ℤ, 1 ≤ m → m ≤ 2 ^ 63 - 1 →
      m ≤ findNilBound hasKey m ∧ findNilBound hasKey m ≤ 2 ^ 63 - 1 ∧
        (hasKey (findNilBound hasKey m) = false ∨ findNilBound hasKey m = 2 ^ 63 - 1) := by
  intro m
  induction m using findNilBound.induct hasKey with
  | case1 m hk hbig =>
    intro h1 h2
    unfold findNilBound
    rw [if_pos hk, if_pos hbig]
    exact ⟨h2, le_refl _, .inr rfl⟩
  | case2 m hk hbig hdouble ih =>
    intro h1 h2
    unfold findNilBound
    rw [if_pos hk, if_neg hbig, if_pos hdouble]
    obtain ⟨ih1, ih2, ih3⟩ := ih (by omega) (by omega)
    exact ⟨by omega, ih2, ih3⟩
  | case3 m hk hbig hdouble =>
    intro h1 h2
    unfold findNilBound
    rw [if_pos hk, if_neg hbig, if_neg hdouble]
    exact ⟨by omega, le_refl _, .inr rfl⟩
  | case4 m hk =>
    intro h1 h2
    unfold findNilBound
    rw [if_neg (by simp [hk])]
    exact ⟨le_refl _, h2, .inl (by simpa using hk)⟩

theorem canonical_key_integer (i : ℤ) : canonical_key (.integer i) = .ok (.integer i) := rfl

/-- Reading an integer key inside the array part. -/
theorem get_integer_array {t : TableEntries} {i : ℤ} (h1 : 1 ≤ i)
    (h2 : i ≤ t.array.length) : t.get (.integer i) = t.array.getD (i - 1).toNat .nil := by
  apply get_fast
  · rw [to_array_index_integer, if_pos (by omega)]
  · omega

/-- Reading an integer key beyond the array part goes to the map. -/
theorem get_integer_map {t : TableEntries} {i : ℤ}
    (h : (t.array.length : ℤ) < i ∨ i ≤ 0) :
    t.get (.integer i) = mapGet t.map (.integer i) := by
  apply get_slow_ok _ (canonical_key_integer i)
  intro idx hidx
  rw [Option.mem_def, to_array_index_integer] at hidx
  rcases h with h | h
  · rw [if_pos (by omega)] at hidx
    injection hidx with hidx
    omega
  · rw [if_neg (by omega)] at hidx
    cases hidx

theorem mapGet_hasIntKey {t : TableEntries} {i : ℤ} (hinv : TableInv t) :
    (t.hasIntKey i = true → mapGet t.map (.integer i) ≠ .nil) ∧
      (t.hasIntKey i = false → mapGet t.map (.integer i) = .nil) := by
  constructor
  · intro h
    unfold TableEntries.hasIntKey at h
    rcases hf : t.map.find? (fun p => key_eq (.integer i) p.1) with _ | p
    · rw [hf] at h
      simp at h
    · unfold mapGet
      rw [hf]
      exact hinv.valuesNonNil p (List.mem_of_find?_eq_some hf)
  · intro h
    unfold TableEntries.hasIntKey at h
    rcases hf : t.map.find? (fun p => key_eq (.integer i) p.1) with _ | p
    · unfold mapGet
      rw [hf]
    · rw [hf] at h
      simp at h

/-- No key at or above `2^63` exists in a well-formed map. -/
theorem hasIntKey_big_false {t : TableEntries} (hinv : TableInv t) {i : ℤ}
    (h : 2 ^ 63 ≤ i) : t.hasIntKey i = false := by
  unfold TableEntries.hasIntKey
  cases hf : t.map.find? (fun p => key_eq (.integer i) p.1) with
  | none => rfl
  | some p =>
    exfalso
    have hp := List.mem_of_find?_eq_some hf
    have hkeq := List.find?_some hf
    have hwf := hinv.keysWf p hp
    cases hp1 : p.1 <;> rw [hp1] at hkeq <;> simp [key_eq] at hkeq
    rename_i j
    rw [hp1] at hwf
    simp [Value.wf] at hwf
    omega

/-- `length` returns a border (claim C2): `0 ≤ i`, `i = 0` or `t[i]` non-Nil,
and `t[i+1]` Nil.  The size hypothesis reflects the source's
`array.len().try_into().unwrap()` and `checked_add(1).unwrap()`, which require
the array length to fit `i64`. -/
theorem length_is_border {t : TableEntries} (hinv : TableInv t)
    (hsz : (t.array.length : ℤ) + 1 ≤ 2 ^ 63 - 1) :
    0 ≤ t.length ∧ (t.length = 0 ∨ t.get (.integer t.length) ≠ .nil) ∧
      t.get (.integer (t.length + 1)) = .nil := by
  have harr : ∀ i : ℤ, 1 ≤ i → i ≤ t.array.length →
      (t.get (.integer i) = .nil ↔ (t.array.getD (i - 1).toNat .nil).isNil = true) := by
    intro i h1 h2
    rw [get_integer_array h1 h2]
    exact isNil_iff.symm
  have hmap : ∀ i : ℤ, (t.array.length : ℤ) < i →
      (t.get (.integer i) = .nil ↔ t.hasIntKey i = false) := by
    intro i hbig
    rw [get_integer_map (.inl hbig)]
    constructor
    · intro h
      rcases hk : t.hasIntKey i with _ | _
      · rfl
      · exact absurd h ((mapGet_hasIntKey hinv).1 hk)
    · intro h
      exact (mapGet_hasIntKey hinv).2 h
  unfold TableEntries.length
  by_cases hb1 : t.array.length ≠ 0 ∧ (t.array.getD (t.array.length - 1) .nil).isNil = true
  · rw [if_pos hb1]
    obtain ⟨hs1, hs2, hs3, hs4⟩ :=
      binarySearch_spec (fun i => (t.array.getD (i - 1).toNat .nil).isNil) 0
        (t.array.length : ℤ) (by omega)
    set r := binarySearch (fun i => (t.array.getD (i - 1).toNat .nil).isNil) 0
      (t.array.length : ℤ) with hr
    refine ⟨hs1, ?_, ?_⟩
    · by_cases hr0 : r = 0
      · exact .inl hr0
      · rcases hs3 with h3 | h3
        · exact .inl h3
        · right
          intro hnil
          rw [harr r (by omega) (by omega)] at hnil
          rw [h3] at hnil
          cases hnil
    · rw [harr (r + 1) (by omega) (by omega)]
      rcases hs4 with h4 | h4
      · rw [h4]
        have : ((t.array.length : ℤ) - 1).toNat = t.array.length - 1 := by omega
        rw [this]
        exact hb1.2
      · exact h4
  · rw [if_neg hb1]
    have hdense : t.array.length ≠ 0 →
        (t.array.getD (t.array.length - 1) .nil).isNil = false := by
      intro h
      rcases hx : (t.array.getD (t.array.length - 1) .nil).isNil with _ | _
      · rfl
      · exact absurd ⟨h, hx⟩ hb1
    by_cases hb2 : t.map.isEmpty
    · rw [if_pos hb2]
      have hmape : t.map = [] := by
        cases hm : t.map
        · rfl
        · rw [hm] at hb2
          simp [List.isEmpty] at hb2
      refine ⟨by positivity, ?_, ?_⟩
      · rcases Nat.eq_zero_or_pos t.array.length with h | h
        · exact .inl (by simp [h])
        · right
          intro hnil
          rw [harr (t.array.length : ℤ) (by omega) (by omega)] at hnil
          have : ((t.array.length : ℤ) - 1).toNat = t.array.length - 1 := by omega
          rw [this] at hnil
          rw [hdense (by omega)] at hnil
          cases hnil
      · rw [hmap ((t.array.length : ℤ) + 1) (by omega)]
        unfold TableEntries.hasIntKey
        rw [hmape]
        simp
    · rw [if_neg hb2]
      obtain ⟨hf1, hf2, hf3⟩ :=
        findNilBound_spec t.hasIntKey ((t.array.length : ℤ) + 1) (by omega) (by omega)
      set bnd := findNilBound t.hasIntKey ((t.array.length : ℤ) + 1) with hbnd
      by_cases hk : t.hasIntKey bnd = true
      · rw [if_pos hk]
        have hbig : bnd = 2 ^ 63 - 1 := by
          rcases hf3 with h | h
          · rw [hk] at h
            cases h
          · exact h
        refine ⟨by omega, ?_, ?_⟩
        · right
          intro hnil
          rw [hmap bnd (by omega)] at hnil
          rw [hk] at hnil
          cases hnil
        · rw [hmap (bnd + 1) (by omega)]
          exact hasIntKey_big_false hinv (by omega)
      · rw [if_neg hk]
        have hkf : t.hasIntKey bnd = false := by simpa using hk
        obtain ⟨hs1, hs2, hs3, hs4⟩ :=
          binarySearch_spec (fun i => !t.hasIntKey i) (t.array.length : ℤ) bnd (by omega)
        set r := binarySearch (fun i => !t.hasIntKey i) (t.array.length : ℤ) bnd with hr
        refine ⟨by omega, ?_, ?_⟩
        · by_cases hral : r = (t.array.length : ℤ)
          · -- r is the array length: dense array (or zero length)
            rcases Nat.eq_zero_or_pos t.array.length with h0 | h0
            · exact .inl (by omega)
            · right
              intro hnil
              rw [hral, harr (t.array.length : ℤ) (by omega) (by omega)] at hnil
              have hcast : ((t.array.length : ℤ) - 1).toNat = t.array.length - 1 := by omega
              rw [hcast, hdense (by omega)] at hnil
              cases hnil
          · right
            intro hnil
            rcases hs3 with h3 | h3
            · exact absurd h3 hral
            · simp at h3
              rw [hmap r (by omega)] at hnil
              rw [h3] at hnil
              cases hnil
        · rw [hmap (r + 1) (by omega)]
          rcases hs4 with h4 | h4
          · rw [h4]
            exact hkf
          · simpa using h4

/-! ## Iteration: `next` -/

theorem firstNonNil_eq_head (l : List Value) (i : ℕ) :
    firstNonNil l i = (pairsAux l i).head? := by
  induction l generalizing i with
  | nil => rfl
  | cons v rest ih =>
    by_cases h : v.isNil = true
    · simp only [firstNonNil, pairsAux, h, if_true]
      exact ih (i + 1)
    · simp only [firstNonNil, pairsAux, h, if_false]
      rfl

theorem pairsAux_mem : ∀ (l : List Value) (i j : ℕ) (v : Value),
    ((j, v) ∈ pairsAux l i ↔ i ≤ j ∧ l[j - i]? = some v ∧ v.isNil = false) := by
  intro l
  induction l with
  | nil => simp [pairsAux]
  | cons v0 rest ih =>
    intro i j v
    by_cases h : v0.isNil = true
    · simp only [pairsAux, h, if_true]
      rw [ih (i + 1) j v]
      constructor
      · rintro ⟨h1, h2, h3⟩
        refine ⟨by omega, ?_, h3⟩
        have : j - i = (j - (i + 1)) + 1 := by omega
        rw [this]
        simpa using h2
      · rintro ⟨h1, h2, h3⟩
        rcases Nat.eq_or_lt_of_le h1 with he | hlt
        · subst he
          simp at h2
          rw [← h2] at h3
          rw [h] at h3
          cases h3
        · refine ⟨by omega, ?_, h3⟩
          have : j - i = (j - (i + 1)) + 1 := by omega
          rw [this] at h2
          simpa using h2
    · have hb : v0.isNil = false := by simpa using h
      simp only [pairsAux, hb, Bool.false_eq_true, if_false, List.mem_cons]
      rw [ih (i + 1) j v]
      constructor
      · rintro (he | ⟨h1, h2, h3⟩)
        · injection he with he1 he2
          subst he1
          subst he2
          refine ⟨le_refl _, by simp, by simpa using h⟩
        · refine ⟨by omega, ?_, h3⟩
          have : j - i = (j - (i + 1)) + 1 := by omega
          rw [this]
          simpa using h2
      · rintro ⟨h1, h2, h3⟩
        rcases Nat.eq_or_lt_of_le h1 with he | hlt
        · subst he
          simp at h2
          left
          rw [h2]
        · right
          refine ⟨by omega, ?_, h3⟩
          have : j - i = (j - (i + 1)) + 1 := by omega
          rw [this] at h2
          simpa using h2

theorem pairsAux_drop : ∀ (l : List Value) (i m j : ℕ) (v : Value),
    (pairsAux l i)[m]? = some (j, v) →
      i ≤ j ∧ (pairsAux l i).drop (m + 1) = pairsAux (l.drop (j + 1 - i)) (j + 1) := by
  intro l
  induction l with
  | nil => simp [pairsAux]
  | cons v0 rest ih =>
    intro i m j v hm
    by_cases h : v0.isNil = true
    · rw [pairsAux, if_pos h] at hm ⊢
      obtain ⟨h1, h2⟩ := ih (i + 1) m j v hm
      refine ⟨by omega, ?_⟩
      rw [h2]
      have : j + 1 - i = (j + 1 - (i + 1)) + 1 := by omega
      rw [this]
      rfl
    · rw [pairsAux, if_neg h] at hm ⊢
      rcases m with _ | m2
      · simp at hm
        obtain ⟨hj, hv⟩ := hm
        constructor
        · omega
        · have h1 : j + 1 - i = 1 := by omega
          rw [h1]
          rw [List.drop_succ_cons, List.drop_zero, List.drop_one, List.tail_cons, hj]
      · simp only [List.getElem?_cons_succ] at hm
        obtain ⟨h1, h2⟩ := ih (i + 1) m2 j v hm
        refine ⟨by omega, ?_⟩
        rw [List.drop_succ_cons, h2]
        have : j + 1 - i = (j + 1 - (i + 1)) + 1 := by omega
        rw [this]
        rfl

theorem pairsAux_pairwise : ∀ (l : List Value) (i : ℕ),
    (pairsAux l i).Pairwise (fun p q => p.1 < q.1) := by
  intro l
  induction l with
  | nil => simp [pairsAux]
  | cons v0 rest ih =>
    intro i
    by_cases h : v0.isNil = true
    · rw [pairsAux, if_pos h]
      exact ih (i + 1)
    · rw [pairsAux, if_neg h]
      rw [List.pairwise_cons]
      refine ⟨?_, ih (i + 1)⟩
      rintro ⟨j, v⟩ hq
      have := (pairsAux_mem rest (i + 1) j v).mp hq
      simp
      omega

theorem canonical_self_not_nil {k : Value} (h : canonical_key k = .ok k) :
    k.isNil = false := by
  cases k <;> simp [Value.isNil]
  simp [canonical_key] at h

theorem next_at_start (t : TableEntries) :
    t.next .nil = (match (iterSeq t)[0]? with
      | some p => NextValue.found p.1 p.2
      | none => NextValue.last) := by
  unfold TableEntries.next
  simp only [to_array_index, Value.isNil, if_true, List.drop_zero]
  rw [firstNonNil_eq_head]
  unfold iterSeq
  rcases hA : pairsAux t.array 0 with _ | ⟨⟨j, v⟩, rest⟩
  · simp only [List.head?, List.map_nil, List.nil_append]
    rcases hM : t.map with _ | ⟨p, restM⟩ <;> simp
  · simp [List.head?]

theorem next_at_array {t : TableEntries} {m j : ℕ} {v : Value}
    (hm : (pairsAux t.array 0)[m]? = some (j, v)) :
    t.next (.integer ((j : ℤ) + 1)) = (match (iterSeq t)[m + 1]? with
      | some p => NextValue.found p.1 p.2
      | none => NextValue.last) := by
  have hmem : (j, v) ∈ pairsAux t.array 0 := by
    have := List.getElem?_eq_some_iff.mp hm
    obtain ⟨hlt, hget⟩ := this
    rw [← hget]
    exact List.getElem_mem hlt
  obtain ⟨_, harr, hnn⟩ := (pairsAux_mem t.array 0 j v).mp hmem
  simp only [Nat.sub_zero] at harr
  have hjlen : j < t.array.length := (List.getElem?_eq_some_iff.mp harr).1
  have hidx : to_array_index (.integer ((j : ℤ) + 1)) = some j := by
    rw [to_array_index_integer, if_pos (by omega)]
    congr 1
    omega
  have hgetD : t.array.getD j .nil = v := by
    rw [List.getD_eq_getElem?_getD, harr]
    rfl
  unfold TableEntries.next
  rw [hidx]
  simp only [hjlen, if_true, hgetD, hnn]
  rw [firstNonNil_eq_head]
  obtain ⟨_, hdrop⟩ := pairsAux_drop t.array 0 m j v hm
  simp only [Nat.sub_zero] at hdrop
  rw [← hdrop, List.head?_drop]
  have hmlt : m < (pairsAux t.array 0).length := (List.getElem?_eq_some_iff.mp hm).1
  unfold iterSeq
  rcases hx : (pairsAux t.array 0)[m + 1]? with _ | ⟨j2, v2⟩
  · have hge : (pairsAux t.array 0).length ≤ m + 1 := by
      by_contra hcon
      rw [List.getElem?_eq_getElem (by omega)] at hx
      cases hx
    have hlen : (pairsAux t.array 0).length = m + 1 := by omega
    rw [List.getElem?_append_right (by simpa using hge)]
    simp only [List.length_map, hlen, Nat.sub_self]
    rcases hM : t.map with _ | ⟨p, restM⟩ <;> simp
  · rw [List.getElem?_append_left (by simp; exact (List.getElem?_eq_some_iff.mp hx).1)]
    rw [List.getElem?_map, hx]
    rfl

theorem mapNextAfter_spec :
    ∀ (M : List (Value × Value)) (m : ℕ) (p : Value × Value), M[m]? = some p →
      M.Pairwise (fun a b => key_eq a.1 b.1 = false) → key_eq p.1 p.1 = true →
      mapNextAfter M p.1 = some (M.drop (m + 1)).head? := by
  intro M
  induction M with
  | nil => simp
  | cons q rest ih =>
    intro m p hm hpw hrefl
    rw [List.pairwise_cons] at hpw
    rcases m with _ | m2
    · simp at hm
      subst hm
      unfold mapNextAfter
      rw [if_pos hrefl]
      simp
    · simp only [List.getElem?_cons_succ] at hm
      have hpmem : p ∈ rest := by
        obtain ⟨hlt, hget⟩ := List.getElem?_eq_some_iff.mp hm
        rw [← hget]
        exact List.getElem_mem hlt
      unfold mapNextAfter
      rw [if_neg (by simp [hpw.1 p hpmem])]
      rw [ih m2 p hm hpw.2 hrefl]
      rfl

theorem next_at_map {t : TableEntries} (hinv : TableInv t) {m : ℕ} {p : Value × Value}
    (hm : t.map[m]? = some p) :
    t.next p.1 = (match t.map[m + 1]? with
      | some q => NextValue.found q.1 q.2
      | none => NextValue.last) := by
  have hpmem : p ∈ t.map := by
    obtain ⟨hlt, hget⟩ := List.getElem?_eq_some_iff.mp hm
    rw [← hget]
    exact List.getElem_mem hlt
  have hcan : canonical_key p.1 = .ok p.1 := hinv.keysCanonical p hpmem
  have hnilf : p.1.isNil = false := canonical_self_not_nil hcan
  have hrefl : key_eq p.1 p.1 = true := key_eq_refl_of_canonical hcan
  have harrNone : (match to_array_index p.1 with
      | some indexKey =>
        if indexKey < t.array.length then
          some (indexKey + 1, (t.array.getD indexKey .nil).isNil)
        else none
      | none => if p.1.isNil then some (0, false) else none) = none := by
    rcases hi : to_array_index p.1 with _ | idx
    · simp [hnilf]
    · have hkey : p.1 = .integer ((idx : ℤ) + 1) := canonical_of_array_index hcan hi
      have := hinv.intKeysBeyond p hpmem ((idx : ℤ) + 1) hkey (by omega)
      simp only
      rw [if_neg (by omega)]
  unfold TableEntries.next
  rw [harrNone]
  simp only [hcan]
  rw [mapNextAfter_spec t.map m p hm hinv.keysNoDup hrefl]
  rw [List.head?_drop]
  rcases hx : t.map[m + 1]? with _ | q <;> simp

theorem next_at {t : TableEntries} (hinv : TableInv t) (m : ℕ) (k : Value)
    (hk : (m = 0 ∧ k = .nil) ∨
      (∃ p, (iterSeq t)[m - 1]? = some p ∧ k = p.1 ∧ 1 ≤ m)) :
    t.next k = (match (iterSeq t)[m]? with
      | some p => NextValue.found p.1 p.2
      | none => NextValue.last) := by
  rcases hk with ⟨hm0, hknil⟩ | ⟨p, hp, hkp, hm1⟩
  · subst hm0
    subst hknil
    exact next_at_start t
  · subst hkp
    by_cases hlt : m - 1 < (pairsAux t.array 0).length
    · have hA : (iterSeq t)[m - 1]? =
          ((pairsAux t.array 0).map
            (fun q => (Value.integer ((q.1 : ℤ) + 1), q.2)))[m - 1]? := by
        unfold iterSeq
        rw [List.getElem?_append_left (by simpa using hlt)]
      rw [hA, List.getElem?_map] at hp
      rcases hx : (pairsAux t.array 0)[m - 1]? with _ | ⟨j, v⟩
      · rw [hx] at hp
        cases hp
      · rw [hx] at hp
        injection hp with hp
        have heq := next_at_array hx
        have hm' : m - 1 + 1 = m := by omega
        rw [hm'] at heq
        subst hp
        exact heq
    · have hlen : (pairsAux t.array 0).length ≤ m - 1 := by omega
      have hM : (iterSeq t)[m - 1]? = t.map[m - 1 - (pairsAux t.array 0).length]? := by
        unfold iterSeq
        rw [List.getElem?_append_right (by simpa using hlen)]
        simp
      rw [hM] at hp
      have heq := next_at_map hinv hp
      have hM2 : (iterSeq t)[m]? = t.map[m - 1 - (pairsAux t.array 0).length + 1]? := by
        unfold iterSeq
        rw [List.getElem?_append_right (by simp; omega)]
        congr 1
        simp
        omega
      rw [hM2]
      exact heq

theorem nextChain_from {t : TableEntries} (hinv : TableInv t) :
    ∀ (c m : ℕ) (k : Value), m + c = (iterSeq t).length →
      ((m = 0 ∧ k = .nil) ∨
        (∃ p, (iterSeq t)[m - 1]? = some p ∧ k = p.1 ∧ 1 ≤ m)) →
      nextChain t c k = (iterSeq t).drop m := by
  intro c
  induction c with
  | zero =>
    intro m k hc hk
    rw [List.drop_of_length_le (by omega)]
    rfl
  | succ c2 ih =>
    intro m k hc hk
    have hmlt : m < (iterSeq t).length := by omega
    have hsome : (iterSeq t)[m]? = some ((iterSeq t).get ⟨m, hmlt⟩) :=
      List.getElem?_eq_getElem hmlt
    have hnext := next_at hinv m k hk
    rw [hsome] at hnext
    have hnext2 : t.next k =
        NextValue.found ((iterSeq t).get ⟨m, hmlt⟩).1 ((iterSeq t).get ⟨m, hmlt⟩).2 := hnext
    unfold nextChain
    rw [hnext2]
    dsimp only
    rw [ih (m + 1) ((iterSeq t).get ⟨m, hmlt⟩).1 (by omega)
      (.inr ⟨(iterSeq t).get ⟨m, hmlt⟩, by simpa using hsome, rfl, by omega⟩)]
    rw [List.drop_eq_getElem_cons hmlt]
    simp [List.get_eq_getElem]

/-- The first occurrence found for a canonical key already in a
pairwise-distinct map is the entry itself. -/
theorem find?_self_of_mem {M : List (Value × Value)} {p : Value × Value}
    (hpw : M.Pairwise (fun a b => key_eq a.1 b.1 = false)) (hp : p ∈ M)
    (hrefl : key_eq p.1 p.1 = true) :
    M.find? (fun q => key_eq p.1 q.1) = some p := by
  induction M with
  | nil => cases hp
  | cons q rest ih =>
    rw [List.pairwise_cons] at hpw
    rcases List.mem_cons.mp hp with he | hmem
    · subst he
      rw [List.find?_cons_of_pos _ (by simpa using hrefl)]
    · have hq : key_eq q.1 p.1 = false := hpw.1 p hmem
      have hq2 : (key_eq p.1 q.1 : Bool) = false := by
        rw [key_eq_symm]
        exact hq
      rw [List.find?_cons_of_neg _ (by simp [hq2])]
      exact ih hpw.2 hmem

theorem iterSeq_keys_nodup {t : TableEntries} (hinv : TableInv t) :
    (iterSeq t).Pairwise (fun p q => p.1 ≠ q.1) := by
  unfold iterSeq
  rw [List.pairwise_append]
  refine ⟨?_, ?_, ?_⟩
  · refine List.Pairwise.map _ ?_ (pairsAux_pairwise t.array 0)
    rintro ⟨j1, v1⟩ ⟨j2, v2⟩ hlt
    simp at hlt ⊢
    omega
  · refine hinv.keysNoDup.imp_of_mem ?_
    intro a b ha hb hab he
    rw [he] at hab
    rw [key_eq_refl_of_canonical (hinv.keysCanonical b hb)] at hab
    cases hab
  · rintro ⟨ka, va⟩ ha ⟨kb, vb⟩ hb
    simp only [List.mem_map] at ha
    obtain ⟨⟨j, v⟩, hjv, hfa⟩ := ha
    obtain ⟨_, harr, _⟩ := (pairsAux_mem t.array 0 j v).mp hjv
    simp only [Nat.sub_zero] at harr
    have hjlen : j < t.array.length := (List.getElem?_eq_some_iff.mp harr).1
    injection hfa with hka hva
    intro he
    simp only at he
    rw [← hka] at he
    have := hinv.intKeysBeyond (kb, vb) hb ((j : ℤ) + 1) (by rw [← he]) (by omega)
    omega

theorem iterSeq_mem_iff {t : TableEntries} (hinv : TableInv t) (k v : Value) :
    (k, v) ∈ iterSeq t ↔ canonical_key k = .ok k ∧ v ≠ .nil ∧ t.get k = v := by
  constructor
  · intro hmem
    unfold iterSeq at hmem
    rcases List.mem_append.mp hmem with hA | hM
    · simp only [List.mem_map] at hA
      obtain ⟨⟨j, v0⟩, hjv, hf⟩ := hA
      have hf2 : (Value.integer ((j : ℤ) + 1), v0) = (k, v) := hf
      injection hf2 with hk hv
      obtain ⟨_, harr, hnn⟩ := (pairsAux_mem t.array 0 j v0).mp hjv
      simp only [Nat.sub_zero] at harr
      have hjlen : j < t.array.length := (List.getElem?_eq_some_iff.mp harr).1
      subst hk
      subst hv
      refine ⟨rfl, ?_, ?_⟩
      · intro he
        rw [he] at hnn
        cases hnn
      · have hidx : to_array_index (.integer ((j : ℤ) + 1)) = some j := by
          rw [to_array_index_integer, if_pos (by omega)]
          congr 1
          omega
        rw [get_fast hidx hjlen, List.getD_eq_getElem?_getD, harr]
        rfl
    · have hcan : canonical_key k = .ok k := hinv.keysCanonical (k, v) hM
      refine ⟨hcan, hinv.valuesNonNil (k, v) hM, ?_⟩
      have hnofit : ∀ idx ∈ to_array_index k, ¬idx < t.array.length := by
        intro idx hidx
        rw [Option.mem_def] at hidx
        have hkey : k = .integer ((idx : ℤ) + 1) := canonical_of_array_index hcan hidx
        have := hinv.intKeysBeyond (k, v) hM ((idx : ℤ) + 1) (by rw [← hkey]) (by omega)
        omega
      rw [get_slow_ok hnofit hcan]
      unfold mapGet
      rw [find?_self_of_mem hinv.keysNoDup hM (key_eq_refl_of_canonical hcan)]
  · rintro ⟨hcan, hvne, hget⟩
    unfold iterSeq
    rw [List.mem_append]
    rcases hi : to_array_index k with _ | idx
    · right
      rw [get_slow_ok (by simp [hi]) hcan] at hget
      unfold mapGet at hget
      rcases hf : t.map.find? (fun p => key_eq k p.1) with _ | p
      · rw [hf] at hget
        exact absurd hget.symm hvne
      · rw [hf] at hget
        have hpmem := List.mem_of_find?_eq_some hf
        have hkeq := List.find?_some hf
        have hpcan := hinv.keysCanonical p hpmem
        have hpk : k = p.1 := eq_of_key_eq_canonical hcan hpcan hkeq
        have hget2 : p.2 = v := hget
        have : (k, v) = p := by
          rw [hpk, ← hget2]
        rw [this]
        exact hpmem
    · by_cases hlt : idx < t.array.length
      · left
        rw [get_fast hi hlt] at hget
        have hk : k = .integer ((idx : ℤ) + 1) := canonical_of_array_index hcan hi
        rw [List.mem_map]
        refine ⟨(idx, v), ?_, by rw [hk]⟩
        rw [pairsAux_mem t.array 0 idx v]
        refine ⟨by omega, ?_, ?_⟩
        · simp only [Nat.sub_zero]
          rw [List.getElem?_eq_getElem hlt]
          rw [List.getD_eq_getElem?_getD, List.getElem?_eq_getElem hlt] at hget
          simp at hget
          rw [hget]
        · rcases hx : v.isNil with _ | _
          · rfl
          · exact absurd (isNil_iff.mp hx) hvne
      · right
        rw [get_slow_ok (by intro a ha; rw [hi] at ha; simp at ha; omega) hcan] at hget
        unfold mapGet at hget
        rcases hf : t.map.find? (fun p => key_eq k p.1) with _ | p
        · rw [hf] at hget
          exact absurd hget.symm hvne
        · rw [hf] at hget
          have hpmem := List.mem_of_find?_eq_some hf
          have hkeq := List.find?_some hf
          have hpcan := hinv.keysCanonical p hpmem
          have hpk : k = p.1 := eq_of_key_eq_canonical hcan hpcan hkeq
          have hget2 : p.2 = v := hget
          have : (k, v) = p := by
            rw [hpk, ← hget2]
          rw [this]
          exact hpmem

/-! ## Rebalance: the optimal size scan -/

theorem pow_two_band {x k c : ℕ} (h1 : x < 2 ^ c) (h2 : 2 ^ c ≤ 2 * x + 1) :
    (c ≤ k ↔ x < 2 ^ k) := by
  constructor
  · intro hk
    have := Nat.pow_le_pow_right (show 1 ≤ 2 by omega) hk
    omega
  · intro hk
    by_contra hcon
    rcases Nat.eq_zero_or_pos c with hc | hc
    · omega
    · have he : (2 : ℕ) ^ c = 2 * 2 ^ (c - 1) := by
        rw [← pow_succ']
        congr 1
        omega
      have hk2 : (2 : ℕ) ^ k ≤ 2 ^ (c - 1) :=
        Nat.pow_le_pow_right (by omega) (by omega)
      omega

theorem log2Byte_le_iff {x k : ℕ} (hx : x < 256) : log2Byte x ≤ k ↔ x < 2 ^ k := by
  unfold log2Byte
  split_ifs with h0 h1 h2 h3 h4 h5 h6 h7
  · exact pow_two_band (c := 0) (by omega) (by omega)
  · exact pow_two_band (c := 1) (by omega) (by omega)
  · exact pow_two_band (c := 2) (by omega) (by omega)
  · exact pow_two_band (c := 3) (by omega) (by omega)
  · exact pow_two_band (c := 4) (by omega) (by omega)
  · exact pow_two_band (c := 5) (by omega) (by omega)
  · exact pow_two_band (c := 6) (by omega) (by omega)
  · exact pow_two_band (c := 7) (by omega) (by omega)
  · exact pow_two_band (c := 8) (by omega) (by omega)

theorem highest_bit_aux_le_iff :
    ∀ (fuel x : ℕ), x < 2 ^ (8 * fuel) * 256 → ∀ k : ℕ,
      (highest_bit_aux fuel x ≤ k ↔ x < 2 ^ k) := by
  intro fuel
  induction fuel with
  | zero =>
    intro x hx k
    simp only [Nat.mul_zero, Nat.pow_zero, Nat.one_mul] at hx
    exact log2Byte_le_iff hx
  | succ fuel2 ih =>
    intro x hx k
    unfold highest_bit_aux
    by_cases h : x < 256
    · rw [if_pos h]
      exact log2Byte_le_iff h
    · rw [if_neg h]
      have hdiv : x / 256 < 2 ^ (8 * fuel2) * 256 := by
        rw [Nat.div_lt_iff_lt_mul (by omega)]
        have h8 : (2 : ℕ) ^ (8 * (fuel2 + 1)) = 2 ^ (8 * fuel2) * 256 := by
          have he : 8 * (fuel2 + 1) = 8 * fuel2 + 8 := by ring
          rw [he, pow_add]
          norm_num
        rw [h8] at hx
        omega
      by_cases hk : k < 8
      · constructor
        · intro hle
          omega
        · intro hlt
          have h2 : (2 : ℕ) ^ k ≤ 2 ^ 7 := Nat.pow_le_pow_right (by omega) (by omega)
          omega
      · have h3 : (2 : ℕ) ^ (k - 8) * 256 = 2 ^ k := by
          have h256 : (256 : ℕ) = 2 ^ 8 := by norm_num
          rw [h256, ← pow_add]
          congr 1
          omega
        constructor
        · intro hle
          have := (ih (x / 256) hdiv (k - 8)).mp (by omega)
          have h2 : x < 2 ^ (k - 8) * 256 :=
            (Nat.div_lt_iff_lt_mul (show 0 < 256 by omega)).mp this
          omega
        · intro hlt
          have h2 : x / 256 < 2 ^ (k - 8) :=
            (Nat.div_lt_iff_lt_mul (show 0 < 256 by omega)).mpr (by omega)
          have := (ih (x / 256) hdiv (k - 8)).mpr h2
          omega

/-- The `highest_bit` characterization, valid for every index a `usize` can
hold (all indices in this development are below `2^63`). -/
theorem highest_bit_le_iff {x k : ℕ} (hx : x < 2 ^ 63) : highest_bit x ≤ k ↔ x < 2 ^ k := by
  unfold highest_bit
  exact highest_bit_aux_le_iff 8 x (by calc x < 2 ^ 63 := hx
    _ ≤ 2 ^ (8 * 8) * 256 := by norm_num) k

theorem length_filter_or_disjoint {l : List ℕ} {p q : ℕ → Bool}
    (hdisj : ∀ x, ¬(p x = true ∧ q x = true)) :
    (l.filter (fun x => p x || q x)).length = (l.filter p).length + (l.filter q).length := by
  induction l with
  | nil => simp
  | cons a rest ih =>
    rcases hp : p a with _ | _ <;> rcases hq : q a with _ | _ <;>
      simp [List.filter_cons, hp, hq, ih] <;> try omega
    exact absurd ⟨hp, hq⟩ (hdisj a)

/-- Entering iteration `i`, the running total counts the candidates with
`highest_bit < i`; processing bin `i` extends it by `binCount i`. -/
theorem count_hb_succ (idxs : List ℕ) (i : ℕ) :
    (idxs.filter (fun x => highest_bit x < i + 1)).length =
      (idxs.filter (fun x => highest_bit x < i)).length + binCount idxs i := by
  unfold binCount
  rw [← length_filter_or_disjoint (p := fun x => decide (highest_bit x < i))
    (q := fun x => decide (highest_bit x = i)) (by intro x; simp; omega)]
  congr 1
  apply List.filter_congr
  intro x _
  by_cases h1 : highest_bit x < i
  · have h2 : highest_bit x < i + 1 := by omega
    simp [h1, h2]
  · by_cases h3 : highest_bit x = i
    · have h2 : highest_bit x < i + 1 := by omega
      simp [h1, h2, h3]
    · have h2 : ¬highest_bit x < i + 1 := by omega
      simp [h1, h2, h3]

theorem count_hb_eq_count_lt {idxs : List ℕ} (hix : ∀ x ∈ idxs, x < 2 ^ 63) (i : ℕ) :
    (idxs.filter (fun x => highest_bit x < i + 1)).length =
      (idxs.filter (fun x => x < 2 ^ i)).length := by
  congr 1
  apply List.filter_congr
  intro x hx
  rw [decide_eq_decide]
  rw [← highest_bit_le_iff (hix x hx)]
  omega

/-- A duplicate-free candidate list with an empty bin `i` cannot make the
size `2^i` qualify: all its sub-`2^i` members already fit below `2^(i-1)`. -/
theorem qualifies_false_of_bin_empty {idxs : List ℕ} (hnd : idxs.Nodup)
    (hix : ∀ x ∈ idxs, x < 2 ^ 63) {i : ℕ} (hbin : binCount idxs i = 0) :
    qualifies idxs i = false := by
  have hnone : ∀ x ∈ idxs, highest_bit x ≠ i := by
    intro x hx
    unfold binCount at hbin
    rw [List.length_eq_zero] at hbin
    intro he
    have : x ∈ idxs.filter (fun y => highest_bit y = i) :=
      List.mem_filter.mpr ⟨hx, by simp [he]⟩
    rw [hbin] at this
    cases this
  rcases Nat.eq_zero_or_pos i with h0 | hpos
  · subst h0
    have hfe : idxs.filter (fun x => x < 2 ^ 0) = [] := by
      rw [List.filter_eq_nil_iff]
      intro x hx
      have h1 : highest_bit x ≠ 0 := hnone x hx
      simp only [Nat.pow_zero, decide_eq_true_eq, not_lt]
      by_contra hcon
      have hx0 : x = 0 := by omega
      subst hx0
      exact h1 rfl
    unfold qualifies
    rw [hfe]
    rfl
  · unfold qualifies
    simp only [decide_eq_false_iff_not, not_lt]
    have hsub : idxs.filter (fun x => x < 2 ^ i) ⊆ List.range (2 ^ (i - 1)) := by
      intro x hx
      rw [List.mem_filter] at hx
      rw [List.mem_range]
      have hxw := hix x hx.1
      have h1 : highest_bit x ≤ i := (highest_bit_le_iff hxw).mpr (by simpa using hx.2)
      have h2 : highest_bit x ≠ i := hnone x hx.1
      exact (highest_bit_le_iff hxw).mp (by omega)
    have hle : (idxs.filter (fun x => x < 2 ^ i)).length ≤ 2 ^ (i - 1) := by
      have := (List.subperm_of_subset (hnd.filter _) hsub).length_le
      simpa using this
    have hhalf : (2 : ℕ) ^ i / 2 = 2 ^ (i - 1) := by
      have h2 : (2 : ℕ) ^ i = 2 ^ (i - 1) * 2 := by
        rw [← pow_succ]
        congr 1
        omega
      omega
    omega

theorem qualifies_false_of_big {idxs : List ℕ} (hlen : idxs.length < 2 ^ 63) {k : ℕ}
    (hk : 64 ≤ k) : qualifies idxs k = false := by
  unfold qualifies
  simp only [decide_eq_false_iff_not, not_lt]
  have h1 : (idxs.filter (fun x => x < 2 ^ k)).length ≤ idxs.length :=
    List.length_filter_le _ _
  have h2 : (2 : ℕ) ^ 63 ≤ 2 ^ k / 2 := by
    have h3 : (2 : ℕ) ^ k = 2 ^ (k - 1) * 2 := by
      rw [← pow_succ]
      congr 1
      omega
    have h4 : (2 : ℕ) ^ 63 ≤ 2 ^ (k - 1) := Nat.pow_le_pow_right (by omega) (by omega)
    omega
  omega

theorem qualifies_false_of_break {idxs : List ℕ} {i k : ℕ} (hik : i ≤ k)
    (hbreak : 2 ^ i / 2 ≥ idxs.length) : qualifies idxs k = false := by
  unfold qualifies
  simp only [decide_eq_false_iff_not, not_lt]
  have h1 : (idxs.filter (fun x => x < 2 ^ k)).length ≤ idxs.length :=
    List.length_filter_le _ _
  have h2 : (2 : ℕ) ^ i ≤ 2 ^ k := Nat.pow_le_pow_right (by omega) hik
  have h3 : (2 : ℕ) ^ i / 2 ≤ 2 ^ k / 2 := Nat.div_le_div_right h2
  omega

theorem optimalSizeAux_spec {idxs : List ℕ} (hnd : idxs.Nodup)
    (hix : ∀ x ∈ idxs, x < 2 ^ 63) (hlen : idxs.length < 2 ^ 63) :
    ∀ (fuel i total opt : ℕ), i + fuel = 64 →
      total = (idxs.filter (fun x => highest_bit x < i)).length →
      ((opt = 0 ∧ ∀ k, k < i → qualifies idxs k = false) ∨
        (∃ k, k < i ∧ opt = 2 ^ k ∧ qualifies idxs k = true ∧
          ∀ j, k < j → j < i → qualifies idxs j = false)) →
      IsLargestQualifying idxs (optimalSizeAux idxs fuel i total opt) := by
  intro fuel
  induction fuel with
  | zero =>
    intro i total opt hi htot hinv2
    unfold optimalSizeAux IsLargestQualifying
    rcases hinv2 with ⟨h0, hall⟩ | ⟨k, hk, hopt, hq, hafter⟩
    · left
      refine ⟨h0, fun k => ?_⟩
      by_cases hbig : k < 64
      · exact hall k (by omega)
      · exact qualifies_false_of_big hlen (by omega)
    · right
      refine ⟨k, hopt, hq, fun j hj => ?_⟩
      by_cases hbig : j < 64
      · exact hafter j hj (by omega)
      · exact qualifies_false_of_big hlen (by omega)
  | succ fuel2 ih =>
    intro i total opt hi htot hinv2
    unfold optimalSizeAux
    by_cases hbr : 2 ^ i / 2 ≥ idxs.length
    · rw [if_pos hbr]
      unfold IsLargestQualifying
      rcases hinv2 with ⟨h0, hall⟩ | ⟨k, hk, hopt, hq, hafter⟩
      · left
        refine ⟨h0, fun k => ?_⟩
        by_cases hlt : k < i
        · exact hall k hlt
        · exact qualifies_false_of_break (by omega) hbr
      · right
        refine ⟨k, hopt, hq, fun j hj => ?_⟩
        by_cases hlt : j < i
        · exact hafter j hj hlt
        · exact qualifies_false_of_break (by omega) hbr
    · rw [if_neg hbr]
      have hcnt : total + binCount idxs i = (idxs.filter (fun x => x < 2 ^ i)).length := by
        rw [htot, ← count_hb_succ, count_hb_eq_count_lt hix]
      have hqi : qualifies idxs i = decide (2 ^ i / 2 < total + binCount idxs i) := by
        unfold qualifies
        rw [hcnt]
      by_cases hbc : binCount idxs i > 0
      · rw [if_pos hbc]
        simp only
        apply ih (i + 1) (total + binCount idxs i) _ (by omega)
        · rw [count_hb_succ, htot]
        · by_cases hq : 2 ^ i / 2 < total + binCount idxs i
          · rw [if_pos hq]
            right
            refine ⟨i, by omega, rfl, by rw [hqi]; simpa using hq, ?_⟩
            intro j hj1 hj2
            omega
          · rw [if_neg hq]
            have hqf : qualifies idxs i = false := by
              rw [hqi]
              simpa using hq
            rcases hinv2 with ⟨h0, hall⟩ | ⟨k, hk, hopt, hq2, hafter⟩
            · left
              refine ⟨h0, fun k hk => ?_⟩
              by_cases hlt : k < i
              · exact hall k hlt
              · have : k = i := by omega
                rw [this]
                exact hqf
            · right
              refine ⟨k, by omega, hopt, hq2, fun j hj1 hj2 => ?_⟩
              by_cases hlt : j < i
              · exact hafter j hj1 hlt
              · have : j = i := by omega
                rw [this]
                exact hqf
      · rw [if_neg hbc]
        have hbc0 : binCount idxs i = 0 := by omega
        have hqf : qualifies idxs i = false := qualifies_false_of_bin_empty hnd hix hbc0
        apply ih (i + 1) total opt (by omega)
        · rw [count_hb_succ, htot, hbc0]
          omega
        · rcases hinv2 with ⟨h0, hall⟩ | ⟨k, hk, hopt, hq2, hafter⟩
          · left
            refine ⟨h0, fun k hk => ?_⟩
            by_cases hlt : k < i
            · exact hall k hlt
            · have : k = i := by omega
              rw [this]
              exact hqf
          · right
            refine ⟨k, by omega, hopt, hq2, fun j hj1 hj2 => ?_⟩
            by_cases hlt : j < i
            · exact hafter j hj1 hlt
            · have : j = i := by omega
              rw [this]
              exact hqf

/-- The scan in `set`'s rebalance computes exactly the largest power of two
whose array would be more than half occupied — provided the candidate list
has no duplicates (which holds whenever the inserted key is not already
present in the map). -/
theorem optimalSize_spec {idxs : List ℕ} (hnd : idxs.Nodup)
    (hix : ∀ x ∈ idxs, x < 2 ^ 63) (hlen : idxs.length < 2 ^ 63) :
    IsLargestQualifying idxs (optimalSize idxs) := by
  unfold optimalSize
  apply optimalSizeAux_spec hnd hix hlen 64 0 0 0 (by omega) (by simp) (.inl ⟨rfl, by omega⟩)

/-- Slots no candidate of the map writes keep their value through the sweep. -/
theorem moveToArray_getD_preserved {i : ℕ} :
    ∀ (a : List Value) (m : List (Value × Value)),
      (∀ q ∈ m, to_array_index q.1 ≠ some i) →
      (moveToArray a m).1.getD i .nil = a.getD i .nil := by
  intro a m
  induction m generalizing a with
  | nil => intro _; rfl
  | cons q rest ih =>
    intro hno
    obtain ⟨k, v⟩ := q
    rcases hk : to_array_index k with _ | j
    · simp only [moveToArray, hk]
      exact ih a (fun q hq => hno q (List.mem_cons_of_mem _ hq))
    · simp only [moveToArray, hk]
      by_cases hj : j < a.length
      · rw [if_pos hj]
        rw [ih (a.set j v) (fun q hq => hno q (List.mem_cons_of_mem _ hq))]
        have hne : j ≠ i := by
          intro he
          exact hno (k, v) (List.mem_cons_self _ _) (by rw [hk, he])
        rw [List.getD_eq_getElem?_getD, List.getElem?_set_ne hne,
          ← List.getD_eq_getElem?_getD]
      · rw [if_neg hj]
        exact ih a (fun q hq => hno q (List.mem_cons_of_mem _ hq))

/-- The sweep deposits each fitting entry in its slot, provided no two map
entries share an array index. -/
theorem moveToArray_content :
    ∀ (a : List Value) (m : List (Value × Value)),
      m.Pairwise (fun p q => ∀ i, to_array_index p.1 = some i →
        to_array_index q.1 ≠ some i) →
      ∀ p ∈ m, ∀ i, to_array_index p.1 = some i → i < a.length →
        (moveToArray a m).1.getD i .nil = p.2 := by
  intro a m
  induction m generalizing a with
  | nil => intro _ p hp; cases hp
  | cons q rest ih =>
    intro hpw p hp i hpi hilt
    rw [List.pairwise_cons] at hpw
    obtain ⟨k, v⟩ := q
    rcases List.mem_cons.mp hp with he | hmem
    · subst he
      have hpi2 : to_array_index k = some i := hpi
      simp only [moveToArray, hpi2]
      rw [if_pos hilt]
      rw [moveToArray_getD_preserved (a.set i v) rest
        (fun q hq => hpw.1 q hq i hpi)]
      rw [List.getD_eq_getElem?_getD, List.getElem?_set_self hilt]
      rfl
    · rcases hk : to_array_index k with _ | j
      · simp only [moveToArray, hk]
        exact ih a hpw.2 p hmem i hpi hilt
      · simp only [moveToArray, hk]
        by_cases hj : j < a.length
        · rw [if_pos hj]
          exact ih (a.set j v) hpw.2 p hmem i hpi (by simpa using hilt)
        · rw [if_neg hj]
          exact ih a hpw.2 p hmem i hpi hilt

/-- Provenance of every slot after the sweep: either the pre-sweep value or a
map entry that fits there. -/
theorem moveToArray_getD_cases {i : ℕ} :
    ∀ (a : List Value) (m : List (Value × Value)),
      (moveToArray a m).1.getD i .nil = a.getD i .nil ∨
        ∃ p ∈ m, to_array_index p.1 = some i ∧ (moveToArray a m).1.getD i .nil = p.2 := by
  intro a m
  induction m generalizing a with
  | nil => exact .inl rfl
  | cons q rest ih =>
    obtain ⟨k, v⟩ := q
    rcases hk : to_array_index k with _ | j
    · simp only [moveToArray, hk]
      rcases ih a with h | ⟨p, hp, hpi, hpv⟩
      · exact .inl h
      · exact .inr ⟨p, List.mem_cons_of_mem _ hp, hpi, hpv⟩
    · simp only [moveToArray, hk]
      by_cases hj : j < a.length
      · rw [if_pos hj]
        rcases ih (a.set j v) with h | ⟨p, hp, hpi, hpv⟩
        · by_cases hij : j = i
          · subst hij
            have h2 : (a.set j v).getD j .nil = v := by
              rw [List.getD_eq_getElem?_getD, List.getElem?_set_self hj]
              rfl
            rw [h2] at h
            exact .inr ⟨(k, v), List.mem_cons_self _ _, hk, by rw [h]⟩
          · have h2 : (a.set j v).getD i .nil = a.getD i .nil := by
              rw [List.getD_eq_getElem?_getD, List.getElem?_set_ne hij,
                ← List.getD_eq_getElem?_getD]
            rw [h2] at h
            exact .inl h
        · exact .inr ⟨p, List.mem_cons_of_mem _ hp, hpi, hpv⟩
      · rw [if_neg hj]
        rcases ih a with h | ⟨p, hp, hpi, hpv⟩
        · exact .inl h
        · exact .inr ⟨p, List.mem_cons_of_mem _ hp, hpi, hpv⟩

/-- Freshly grown slots hold `Nil`. -/
theorem append_replicate_getD_nil {a : List Value} {n i : ℕ} (h : a.length ≤ i) :
    (a ++ List.replicate n Value.nil).getD i .nil = .nil := by
  rw [List.getD_eq_getElem?_getD]
  rcases hx : (a ++ List.replicate n Value.nil)[i]? with _ | v
  · rfl
  · have hlt : i < a.length + n := by
      have := (List.getElem?_eq_some_iff.mp hx).1
      simpa using this
    rw [List.getElem?_append_right h] at hx
    rw [List.getElem?_replicate_of_lt (by omega)] at hx
    injection hx with hx
    rw [← hx]
    rfl

/-- `set` never shrinks the array part. -/
theorem set_array_length_mono {t : TableEntries} {key value old : Value} {t2 : TableEntries}
    (h : t.set key value = .ok (old, t2)) : t.array.length ≤ t2.array.length := by
  rcases set_ok_elim h with ⟨idx, _, _, _, ht2⟩ | ⟨tk, hc, hnofit, hslow⟩
  · rw [ht2]
    simp
  · rcases setSlow_cases t (to_array_index key) tk value with
        ⟨_, heq⟩ | ⟨_, _, heq⟩ | ⟨_, _, ⟨idx, hik, hlt, heq⟩ | ⟨hnofit2, heq⟩⟩ <;>
      rw [heq] at hslow <;> injection hslow with _ ht2 <;> rw [ht2] <;>
      simp [rebalanced_array_length] <;> omega

/-- No two map entries of an invariant-satisfying table share an array
index. -/
theorem map_indices_pairwise {t : TableEntries} (hinv : TableInv t) :
    t.map.Pairwise (fun p q => ∀ i, to_array_index p.1 = some i →
      to_array_index q.1 ≠ some i) := by
  refine hinv.keysNoDup.imp_of_mem ?_
  intro p q hp hq hne i hpi hqi
  have h1 : p.1 = .integer ((i : ℤ) + 1) :=
    canonical_of_array_index (hinv.keysCanonical p hp) hpi
  have h2 : q.1 = .integer ((i : ℤ) + 1) :=
    canonical_of_array_index (hinv.keysCanonical q hq) hqi
  rw [h1, h2] at hne
  simp [key_eq] at hne

theorem candidateIndices_elems_lt {t : TableEntries} {ik : Option ℕ} (hinv : TableInv t)
    (hsz : t.array.length < 2 ^ 63) (hik : ∀ i ∈ ik, i < 2 ^ 63) :
    ∀ x ∈ candidateIndices t ik, x < 2 ^ 63 := by
  intro x hx
  unfold candidateIndices at hx
  rcases List.mem_append.mp hx with hx | hx2
  · rcases List.mem_append.mp hx with hx | hx
    · have := List.mem_range.mp (List.mem_filter.mp hx).1
      omega
    · rw [List.mem_filterMap] at hx
      obtain ⟨p, hp, hpi⟩ := hx
      have hk : p.1 = .integer ((x : ℤ) + 1) :=
        canonical_of_array_index (hinv.keysCanonical p hp) hpi
      have hwf := hinv.keysWf p hp
      rw [hk] at hwf
      simp [Value.wf] at hwf
      omega
  · rcases hi : ik with _ | i <;> rw [hi] at hx2
    · cases hx2
    · simp at hx2
      subst hx2
      exact hik x (by rw [hi]; exact rfl)

theorem candidateIndices_nodup {t : TableEntries} {ik : Option ℕ} (hinv : TableInv t)
    (hik : ∀ i ∈ ik, ¬i < t.array.length ∧
      ∀ p ∈ t.map, to_array_index p.1 ≠ some i) :
    (candidateIndices t ik).Nodup := by
  have hbeyond : ∀ x, x ∈ t.map.filterMap (fun p => to_array_index p.1) →
      ¬x < t.array.length := by
    intro x hx
    rw [List.mem_filterMap] at hx
    obtain ⟨p, hp, hpi⟩ := hx
    have hk : p.1 = .integer ((x : ℤ) + 1) :=
      canonical_of_array_index (hinv.keysCanonical p hp) hpi
    have := hinv.intKeysBeyond p hp ((x : ℤ) + 1) hk (by omega)
    omega
  unfold candidateIndices
  rw [List.append_assoc, List.nodup_append]
  refine ⟨(List.nodup_range _).filter _, ?_, ?_⟩
  · rw [List.nodup_append]
    refine ⟨?_, ?_, ?_⟩
    · rw [List.Nodup, List.pairwise_filterMap]
      refine hinv.keysNoDup.imp_of_mem ?_
      intro p q hp hq hne i hpi j hqj he
      subst he
      have h1 : p.1 = .integer ((i : ℤ) + 1) :=
        canonical_of_array_index (hinv.keysCanonical p hp) hpi
      have h2 : q.1 = .integer ((i : ℤ) + 1) :=
        canonical_of_array_index (hinv.keysCanonical q hq) hqj
      rw [h1, h2] at hne
      simp [key_eq] at hne
    · rcases hi : ik with _ | i
      · simp
      · simp only [List.nodup_cons]
        exact ⟨by simp, List.nodup_nil⟩
    · intro x hx1 hx2
      rcases hi : ik with _ | i <;> rw [hi] at hx2
      · cases hx2
      · simp at hx2
        subst hx2
        exact (hik x (by rw [hi]; exact rfl)).2 _
          (List.mem_filterMap.mp hx1).choose_spec.1
          ((List.mem_filterMap.mp hx1).choose_spec.2)
  · intro x hx1 hx2
    have hxlt : x < t.array.length :=
      List.mem_range.mp (List.mem_filter.mp hx1).1
    rcases List.mem_append.mp hx2 with hx3 | hx3
    · exact hbeyond x hx3 hxlt
    · rcases hi : ik with _ | i <;> rw [hi] at hx3
      · cases hx3
      · simp at hx3
        subst hx3
        exact (hik x (by rw [hi]; exact rfl)).1 hxlt

theorem canonical_error_isNil_iff {k : Value} :
    canonical_key k = .error .isNil ↔ k = .nil := by
  cases k <;> simp [canonical_key]
  case number n =>
    rcases hn : n.isNan with _ | _
    · rcases hi : f64_to_i64 n with _ | i <;> simp [hn, hi]
    · simp [hn]

theorem canonical_error_isNaN_iff {k : Value} :
    canonical_key k = .error .isNaN ↔ ∃ f, k = .number f ∧ f.isNan = true := by
  cases k <;> simp [canonical_key]
  case number n =>
    rcases hn : n.isNan with _ | _
    · rcases hi : f64_to_i64 n with _ | i <;> simp [hn, hi]
    · simp [hn]

/-- Array indices of well-formed keys fit a `usize` (indeed `i64`). -/
theorem to_array_index_lt_of_wf {key : Value} (hw : key.wf) {i : ℕ}
    (hi : to_array_index key = some i) : i < 2 ^ 63 := by
  cases key <;> simp [to_array_index] at hi
  case integer j =>
    simp [Value.wf] at hw
    omega
  case number f =>
    rcases hf : f64_to_i64 f with _ | j
    · rw [hf] at hi
      cases hi
    · rw [hf] at hi
      simp at hi
      have := f64_to_i64_range hf
      omega

/-- Inserting a key that matches nothing in the map appends it. -/
theorem tableInsert_of_fresh {m : List (Value × Value)} {k : Value}
    (hfresh : ∀ p ∈ m, key_eq p.1 k = false) (v : Value) :
    tableInsert m k v = (none, m ++ [(k, v)]) := by
  induction m with
  | nil => rfl
  | cons q rest ih =>
    unfold tableInsert
    rw [if_neg (by simp [hfresh q (List.mem_cons_self _ _)])]
    rw [ih (fun p hp => hfresh p (List.mem_cons_of_mem _ hp))]
    rfl

/-- If nothing in the map matches the key, the bucket scan of `next` reports
the key as absent. -/
theorem mapNextAfter_none {M : List (Value × Value)} {k : Value}
    (h : ∀ p ∈ M, key_eq p.1 k = false) : mapNextAfter M k = none := by
  induction M with
  | nil => rfl
  | cons q rest ih =>
    unfold mapNextAfter
    rw [if_neg (by simp [h q (List.mem_cons_self _ _)])]
    exact ih (fun p hp => h p (List.mem_cons_of_mem _ hp))

/-! ## The claims -/

/-- C1: for every table state reachable by table operations and every key
(necessarily neither Nil nor NaN, or `set` would not succeed), if
`set(k, v)` succeeds then an immediately following `get(k)` returns `v`; in
particular `set(k, Nil)` makes `get(k)` return `Nil` (an array hole or a
deleted map entry). -/
theorem claim_C1_roundtrip {s : TableState} (hr : Reachable s) {key value old : Value}
    {t2 : TableEntries} (h : s.entries.set key value = .ok (old, t2)) :
    t2.get key = value :=
  get_after_set (reachable_tableInv hr) h

theorem claim_C1_roundtrip_witness :
    Table.new.entries.set (.integer 1) (.boolean true) =
      .ok (.nil, { array := [.boolean true], map := [], mapCapacity := 0 }) ∧
    TableEntries.get { array := [.boolean true], map := [], mapCapacity := 0 }
      (.integer 1) = .boolean true :=
  ⟨by decide,
    @claim_C1_roundtrip Table.new Reachable.new (.integer 1) (.boolean true) .nil
      { array := [.boolean true], map := [], mapCapacity := 0 } (by decide)⟩

/-- C4: every reachable table satisfies the structural invariants: no Nil
map values, canonical pairwise-distinct map keys, integer map keys `i ≥ 1`
strictly beyond the array part, and hence no key both in the array part and
in the map. -/
theorem claim_C4_invariants {s : TableState} (hr : Reachable s) :
    (∀ p ∈ s.entries.map, p.2 ≠ Value.nil) ∧
    (∀ p ∈ s.entries.map, canonical_key p.1 = .ok p.1) ∧
    s.entries.map.Pairwise (fun p q => key_eq p.1 q.1 = false) ∧
    (∀ p ∈ s.entries.map, ∀ i : ℤ, p.1 = .integer i → 1 ≤ i →
      (s.entries.array.length : ℤ) < i) ∧
    (∀ i : ℕ, i < s.entries.array.length →
      ∀ p ∈ s.entries.map, p.1 ≠ .integer ((i : ℤ) + 1)) := by
  have h := reachable_tableInv hr
  refine ⟨h.valuesNonNil, h.keysCanonical, h.keysNoDup, h.intKeysBeyond, ?_⟩
  intro i hi p hp he
  have := h.intKeysBeyond p hp ((i : ℤ) + 1) he (by omega)
  omega

theorem claim_C4_invariants_witness :
    (∀ p ∈ Table.new.entries.map, p.2 ≠ Value.nil) ∧
    (∀ p ∈ Table.new.entries.map, canonical_key p.1 = .ok p.1) ∧
    Table.new.entries.map.Pairwise (fun p q => key_eq p.1 q.1 = false) ∧
    (∀ p ∈ Table.new.entries.map, ∀ i : ℤ, p.1 = .integer i → 1 ≤ i →
      (Table.new.entries.array.length : ℤ) < i) ∧
    (∀ i : ℕ, i < Table.new.entries.array.length →
      ∀ p ∈ Table.new.entries.map, p.1 ≠ .integer ((i : ℤ) + 1)) :=
  claim_C4_invariants Reachable.new

/-- C5: `set` fails with `IsNil` exactly for the Nil key and with `IsNaN`
exactly for NaN float keys; a failed `set` leaves the state unchanged; and
`get` never fails — it returns `Nil` for Nil and NaN keys. -/
theorem claim_C5_key_validation (s : TableState) (k v : Value) :
    (s.entries.set k v = .error .isNil ↔ k = .nil) ∧
    (s.entries.set k v = .error .isNaN ↔ ∃ f, k = .number f ∧ f.isNan = true) ∧
    (∀ e, s.entries.set k v = .error e → applyOp s (.set k v) = s) ∧
    s.entries.get .nil = .nil ∧
    (∀ f : F64, f.isNan = true → s.entries.get (.number f) = .nil) := by
  refine ⟨?_, ?_, ?_, ?_, ?_⟩
  · rw [set_error_iff]
    exact canonical_error_isNil_iff
  · rw [set_error_iff]
    exact canonical_error_isNaN_iff
  · intro e he
    simp [applyOp, he]
  · exact get_slow_error rfl
  · intro f hf
    exact get_slow_error (e := .isNaN) (by simp [canonical_key, hf])

theorem claim_C5_key_validation_witness :
    Table.new.entries.set .nil (.boolean true) = .error .isNil ∧
    Table.new.entries.set (.number .nan) (.boolean true) = .error .isNaN ∧
    applyOp Table.new (.set .nil (.boolean true)) = Table.new :=
  ⟨(claim_C5_key_validation Table.new .nil (.boolean true)).1.mpr rfl,
    (claim_C5_key_validation Table.new (.number .nan) (.boolean true)).2.1.mpr
      ⟨.nan, rfl, rfl⟩,
    (claim_C5_key_validation Table.new .nil (.boolean true)).2.2.1 .isNil
      ((claim_C5_key_validation Table.new .nil (.boolean true)).1.mpr rfl)⟩

/-- C9: no operation shrinks the array part, and deleting an array-resident
key leaves a `Nil` hole at the same length. -/
theorem claim_C9_array_never_shrinks :
    (∀ (s : TableState) (op : TableOp),
      s.entries.array.length ≤ (applyOp s op).entries.array.length) ∧
    (∀ (t : TableEntries) (k : Value) (idx : ℕ) (old : Value) (t2 : TableEntries),
      to_array_index k = some idx → idx < t.array.length →
      t.set k .nil = .ok (old, t2) →
      t2.array.length = t.array.length ∧ t2.array.getD idx .nil = .nil) := by
  constructor
  · intro s op
    rcases op with ⟨k, v⟩ | m
    · rcases hs : s.entries.set k v with e | r
      · simp [applyOp, hs]
      · obtain ⟨old, t2⟩ := r
        simpa [applyOp, hs] using set_array_length_mono hs
    · simp [applyOp, Table.set_metatable]
  · intro t k idx old t2 hidx hlt h
    rw [set_fast hidx hlt] at h
    injection h with h
    injection h with _ ht2
    rw [← ht2]
    refine ⟨by simp, ?_⟩
    simp only
    rw [List.getD_eq_getElem?_getD, List.getElem?_set_self hlt]
    rfl

theorem claim_C9_array_never_shrinks_witness :
    TableEntries.set { array := [.boolean true], map := [], mapCapacity := 0 }
        (.integer 1) .nil =
      .ok (.boolean true, { array := [.nil], map := [], mapCapacity := 0 }) ∧
    List.length [Value.nil] = List.length [Value.boolean true] ∧
    List.getD [Value.nil] 0 .nil = .nil :=
  ⟨by decide,
    (claim_C9_array_never_shrinks.2 { array := [.boolean true], map := [], mapCapacity := 0 }
      (.integer 1) 0 (.boolean true) { array := [.nil], map := [], mapCapacity := 0 }
      (by decide) (by decide) (by decide)).1,
    (claim_C9_array_never_shrinks.2 { array := [.boolean true], map := [], mapCapacity := 0 }
      (.integer 1) 0 (.boolean true) { array := [.nil], map := [], mapCapacity := 0 }
      (by decide) (by decide) (by decide)).2⟩

/-- C10: entries and metatable are independent: `set_metatable` returns the
previous metatable, stores the new one, and leaves the entries (hence all
`get`/`length`/`next` results) untouched; `set` never changes the
metatable (the reading operations are pure and change nothing). -/
theorem claim_C10_metatable_frame (s : TableState) (m : Option ℕ) (k v : Value) :
    (Table.set_metatable s m).1 = s.metatable ∧
    (Table.set_metatable s m).2.metatable = m ∧
    (Table.set_metatable s m).2.entries = s.entries ∧
    (∀ key, (Table.set_metatable s m).2.entries.get key = s.entries.get key) ∧
    (Table.set_metatable s m).2.entries.length = s.entries.length ∧
    (∀ key, (Table.set_metatable s m).2.entries.next key = s.entries.next key) ∧
    (applyOp s (.set k v)).metatable = s.metatable := by
  refine ⟨rfl, rfl, rfl, fun _ => rfl, rfl, fun _ => rfl, ?_⟩
  rcases hs : s.entries.set k v with e | r <;> simp [applyOp, hs]

/-- C2: on every reachable table, `length()` returns a border `i ≥ 0`
(`i = 0` or `t[i] ≠ Nil`, and `t[i+1] = Nil`); consequently, when the
non-Nil integer keys are exactly `1..=n`, `length()` is `n`.  The size bound
reflects the source's `array.len().try_into().unwrap()` and
`checked_add(1).unwrap()`, which demand that the array length fit `i64`. -/
theorem claim_C2_border {s : TableState} (hr : Reachable s)
    (hsz : (s.entries.array.length : ℤ) + 1 ≤ 2 ^ 63 - 1) :
    (0 ≤ s.entries.length ∧
      (s.entries.length = 0 ∨ s.entries.get (.integer s.entries.length) ≠ .nil) ∧
      s.entries.get (.integer (s.entries.length + 1)) = .nil) ∧
    (∀ n : ℤ, 0 ≤ n →
      (∀ i : ℤ, 1 ≤ i → i ≤ n → s.entries.get (.integer i) ≠ .nil) →
      (∀ i : ℤ, 1 ≤ i → n < i → s.entries.get (.integer i) = .nil) →
      s.entries.length = n) := by
  obtain ⟨h0, h1, h2⟩ := length_is_border (reachable_tableInv hr) hsz
  refine ⟨⟨h0, h1, h2⟩, ?_⟩
  intro n hn hlo hhi
  set L := s.entries.length with hL
  have hLn : n ≤ L := by
    by_contra hcon
    exact hlo (L + 1) (by omega) (by omega) h2
  rcases h1 with h1 | h1
  · omega
  · by_contra hne
    exact h1 (hhi L (by omega) (by omega))

theorem claim_C2_border_witness :
    ((0 ≤ Table.new.entries.length ∧
      (Table.new.entries.length = 0 ∨
        Table.new.entries.get (.integer Table.new.entries.length) ≠ .nil) ∧
      Table.new.entries.get (.integer (Table.new.entries.length + 1)) = .nil) ∧
    (∀ n : ℤ, 0 ≤ n →
      (∀ i : ℤ, 1 ≤ i → i ≤ n → Table.new.entries.get (.integer i) ≠ .nil) →
      (∀ i : ℤ, 1 ≤ i → n < i → Table.new.entries.get (.integer i) = .nil) →
      Table.new.entries.length = n)) :=
  claim_C2_border Reachable.new (by decide)

/-- C6: starting from `next(Nil)` and feeding each returned key back in,
every non-Nil entry is visited exactly once — array part in ascending index
order then map part — and the traversal ends with `Last`; on an empty table
`next(Nil)` is already `Last`. -/
theorem claim_C6_iteration {s : TableState} (hr : Reachable s) :
    nextChain s.entries (iterSeq s.entries).length .nil = iterSeq s.entries ∧
    (∀ p, (iterSeq s.entries).getLast? = some p → s.entries.next p.1 = .last) ∧
    (iterSeq s.entries = [] → s.entries.next .nil = .last) ∧
    (iterSeq s.entries).Pairwise (fun p q => p.1 ≠ q.1) ∧
    (∀ k v, (k, v) ∈ iterSeq s.entries ↔
      (canonical_key k = .ok k ∧ v ≠ .nil ∧ s.entries.get k = v)) := by
  have hinv := reachable_tableInv hr
  refine ⟨?_, ?_, ?_, iterSeq_keys_nodup hinv, iterSeq_mem_iff hinv⟩
  · have := nextChain_from hinv (iterSeq s.entries).length 0 .nil (by omega)
      (.inl ⟨rfl, rfl⟩)
    simpa using this
  · intro p hp
    have hne : iterSeq s.entries ≠ [] := by
      intro he
      rw [he] at hp
      cases hp
    have hlen : 1 ≤ (iterSeq s.entries).length := by
      rcases hx : iterSeq s.entries with _ | ⟨q, rest⟩
      · exact absurd hx hne
      · simp [hx]
    have hp2 : (iterSeq s.entries)[(iterSeq s.entries).length - 1]? = some p := by
      rw [← List.getLast?_eq_getElem?]
      exact hp
    have := next_at hinv (iterSeq s.entries).length p.1
      (.inr ⟨p, hp2, rfl, by omega⟩)
    rw [List.getElem?_eq_none (le_refl _)] at this
    exact this
  · intro he
    have := next_at_start s.entries
    rw [he] at this
    simpa using this

theorem claim_C6_iteration_witness :
    nextChain Table.new.entries (iterSeq Table.new.entries).length .nil =
      iterSeq Table.new.entries ∧
    (∀ p, (iterSeq Table.new.entries).getLast? = some p →
      Table.new.entries.next p.1 = .last) ∧
    (iterSeq Table.new.entries = [] → Table.new.entries.next .nil = .last) ∧
    (iterSeq Table.new.entries).Pairwise (fun p q => p.1 ≠ q.1) ∧
    (∀ k v, (k, v) ∈ iterSeq Table.new.entries ↔
      (canonical_key k = .ok k ∧ v ≠ .nil ∧ Table.new.entries.get k = v)) :=
  claim_C6_iteration Reachable.new

theorem get_congr_key {a b : Value} (hc : canonical_key a = canonical_key b)
    (hi : to_array_index a = to_array_index b) (t : TableEntries) : t.get a = t.get b := by
  unfold TableEntries.get
  rw [hc, hi]

theorem set_congr_key {a b : Value} (hc : canonical_key a = canonical_key b)
    (hi : to_array_index a = to_array_index b) (t : TableEntries) (v : Value) :
    t.set a v = t.set b v := by
  unfold TableEntries.set
  rw [hc, hi]

theorem f64_to_i64_not_nan {f : F64} {i : ℤ} (hfi : f64_to_i64 f = some i) :
    f.isNan = false := by
  cases f <;> try rfl
  rw [show f64_to_i64 .nan = none from rfl] at hfi
  cases hfi

theorem canonical_number_of_f64_to_i64 {f : F64} {i : ℤ} (hfi : f64_to_i64 f = some i) :
    canonical_key (.number f) = .ok (.integer i) := by
  simp [canonical_key, f64_to_i64_not_nan hfi, hfi]

theorem to_array_index_number_of_f64_to_i64 {f : F64} {i : ℤ}
    (hfi : f64_to_i64 f = some i) :
    to_array_index (.number f) = to_array_index (.integer i) := by
  simp only [to_array_index, hfi]

/-- C8: an integer key and every float key folding to it denote the same
entry, for both `get` and `set`; and `-0.0` and `0.0` read the same entry.
The hypothesis `f64_to_i64 f = some i` is exactly the source condition
`(n as i64) as f64 == n` relating the float to its integer. -/
theorem claim_C8_float_folding {t : TableEntries} (hinv : TableInv t)
    {f : F64} {i : ℤ} (hfi : f64_to_i64 f = some i) :
    (∀ x old t2, t.set (.integer i) x = .ok (old, t2) → t2.get (.number f) = x) ∧
    (∀ x old t2, t.set (.number f) x = .ok (old, t2) → t2.get (.integer i) = x) ∧
    (∀ u : TableEntries, u.get (.number .negZero) = u.get (.number (.fin 0))) := by
  have hceq : canonical_key (.number f) = canonical_key (.integer i) :=
    canonical_number_of_f64_to_i64 hfi
  have hieq : to_array_index (.number f) = to_array_index (.integer i) :=
    to_array_index_number_of_f64_to_i64 hfi
  refine ⟨?_, ?_, ?_⟩
  · intro x old t2 h
    rw [get_congr_key hceq hieq]
    exact get_after_set hinv h
  · intro x old t2 h
    rw [set_congr_key hceq hieq] at h
    exact get_after_set hinv h
  · intro u
    exact get_congr_key (by decide) (by decide) u

theorem claim_C8_float_folding_witness :
    f64_to_i64 (.fin 3) = some 3 ∧
    Table.new.entries.set (.integer 3) (.boolean true) =
      .ok (.nil, { array := [], map := [(.integer 3, .boolean true)], mapCapacity := 1 }) ∧
    TableEntries.get { array := [], map := [(.integer 3, .boolean true)], mapCapacity := 1 }
      (.number (.fin 3)) = .boolean true :=
  ⟨by decide, by decide,
    (claim_C8_float_folding tableInv_new (f := .fin 3) (i := 3) (by decide)).1
      (.boolean true) .nil _ (by decide)⟩

theorem rebalanced_grow (t : TableEntries) (ik : Option ℕ)
    (hgt : optimalSize (candidateIndices t ik) > t.array.length) :
    rebalanced t ik = { t with
      array := (moveToArray
        (t.array ++ List.replicate (optimalSize (candidateIndices t ik) - t.array.length)
          Value.nil) t.map).1,
      map := (moveToArray
        (t.array ++ List.replicate (optimalSize (candidateIndices t ik) - t.array.length)
          Value.nil) t.map).2 } := by
  unfold rebalanced
  rw [if_pos hgt]

theorem rebalanced_nogrow (t : TableEntries) (ik : Option ℕ)
    (hle : ¬optimalSize (candidateIndices t ik) > t.array.length) :
    rebalanced t ik = { t with mapCapacity := 2 * t.map.length } := by
  unfold rebalanced
  rw [if_neg hle]

/-- C7 (amended): for an absent non-Nil key, `next` returns `NotFound` —
except when the key denotes a hole inside the array part: then `next` skips
forward to the next non-Nil array entry and returns it (`NotFound` only when
no later array entry is non-Nil). -/
theorem claim_C7_next_absent {t : TableEntries} (hinv : TableInv t) {k : Value}
    (hknil : k ≠ .nil) (habsent : t.get k = .nil) :
    ((∀ idx ∈ to_array_index k, ¬idx < t.array.length) → t.next k = .notFound) ∧
    (∀ idx, to_array_index k = some idx → idx < t.array.length →
      t.next k = (match firstNonNil (t.array.drop (idx + 1)) (idx + 1) with
        | some iv => NextValue.found (.integer ((iv.1 : ℤ) + 1)) iv.2
        | none => NextValue.notFound)) := by
  constructor
  · intro hno
    have hknilb : k.isNil = false := by
      cases k <;> simp [Value.isNil]
      exact hknil rfl
    have harrNone : (match to_array_index k with
        | some indexKey =>
          if indexKey < t.array.length then
            some (indexKey + 1, (t.array.getD indexKey .nil).isNil)
          else none
        | none => if k.isNil then some (0, false) else none) = none := by
      rcases hi : to_array_index k with _ | idx
      · simp [hknilb]
      · have := hno idx (by rw [hi]; exact rfl)
        simp only
        rw [if_neg this]
    unfold TableEntries.next
    rw [harrNone]
    rcases hc : canonical_key k with e | tk
    · rfl
    · simp only
      rw [get_slow_ok hno hc] at habsent
      unfold mapGet at habsent
      rcases hf : t.map.find? (fun p => key_eq tk p.1) with _ | p
      · rw [List.find?_eq_none] at hf
        rw [mapNextAfter_none (fun p hp => by
          have := hf p hp
          rw [key_eq_symm]
          simpa using this)]
      · rw [hf] at habsent
        exact absurd habsent (hinv.valuesNonNil p (List.mem_of_find?_eq_some hf))
  · intro idx hidx hlt
    have hnil : (t.array.getD idx .nil).isNil = true := by
      rw [get_fast hidx hlt] at habsent
      rw [habsent]
      rfl
    unfold TableEntries.next
    rw [hidx]
    simp only [hlt, if_true, hnil]

/-- C7, counterexample to the claim as stated: in the reachable table built
by `set(1, true); set(2, true); set(1, Nil)` the key `1` is an array hole
(`get(Integer 1) = Nil`), yet `next(Integer 1)` returns the entry `(2, true)`
rather than `NotFound`. -/
theorem claim_C7_counterexample :
    Reachable
      { entries := { array := [Value.nil, Value.boolean true], map := [], mapCapacity := 0 },
        metatable := none } ∧
    (Value.integer 1) ≠ Value.nil ∧
    TableEntries.get { array := [Value.nil, Value.boolean true], map := [], mapCapacity := 0 }
      (.integer 1) = .nil ∧
    TableEntries.next { array := [Value.nil, Value.boolean true], map := [], mapCapacity := 0 }
      (.integer 1) = .found (.integer 2) (.boolean true) ∧
    TableEntries.next { array := [Value.nil, Value.boolean true], map := [], mapCapacity := 0 }
      (.integer 1) ≠ .notFound := by
  refine ⟨?_, by decide, by decide, by decide, by decide⟩
  have e1 : applyOp Table.new (.set (.integer 1) (.boolean true)) =
      { entries := { array := [Value.boolean true], map := [], mapCapacity := 0 },
        metatable := none } := by decide
  have r1 := e1 ▸ Reachable.step (.set (.integer 1) (.boolean true)) Reachable.new (by decide)
  have e2 : applyOp
      { entries := { array := [Value.boolean true], map := [], mapCapacity := 0 },
        metatable := none }
      (.set (.integer 2) (.boolean true)) =
      { entries :=
          { array := [Value.boolean true, Value.boolean true], map := [], mapCapacity := 0 },
        metatable := none } := by decide
  have r2 := e2 ▸ Reachable.step (.set (.integer 2) (.boolean true)) r1 (by decide)
  have e3 : applyOp
      { entries :=
          { array := [Value.boolean true, Value.boolean true], map := [], mapCapacity := 0 },
        metatable := none }
      (.set (.integer 1) .nil) =
      { entries := { array := [Value.nil, Value.boolean true], map := [], mapCapacity := 0 },
        metatable := none } := by decide
  exact e3 ▸ Reachable.step (.set (.integer 1) .nil) r2 (by decide)

theorem claim_C7_next_absent_witness :
    TableEntries.next { array := [Value.nil, Value.boolean true], map := [], mapCapacity := 0 }
      (.string 5) = .notFound ∧
    TableEntries.next { array := [Value.nil, Value.boolean true], map := [], mapCapacity := 0 }
      (.integer 1) = .found (.integer 2) (.boolean true) := by
  constructor
  · exact (claim_C7_next_absent (by constructor <;> simp) (by decide) (by decide)).1
      (by intro idx hidx; rw [Option.mem_def] at hidx; cases hidx)
  · have h2 := (claim_C7_next_absent
      (t := { array := [Value.nil, Value.boolean true], map := [], mapCapacity := 0 })
      (by constructor <;> simp) (k := .integer 1) (by decide) (by decide)).2 0
      (by decide) (by decide)
    rw [h2]
    decide

/-- C3, counterexample to the claim as stated: on the reachable table
`sampleDupTable`, re-inserting the already-present key `1` (map full, key
not array-resident) makes the scan tally index `0` twice; the bin-nonempty
guard then freezes the chosen size at `1`, although over the tallied
candidate entries the largest power of two with more-than-half occupancy is
`2`.  The chosen size is therefore not the claimed optimum. -/
theorem claim_C3_counterexample :
    Reachable { entries := sampleDupTable, metatable := none } ∧
    canonical_key (.integer 1) = .ok (.integer 1) ∧
    (Value.boolean false) ≠ Value.nil ∧
    (∀ idx ∈ to_array_index (.integer 1), ¬idx < sampleDupTable.array.length) ∧
    ¬sampleDupTable.map.length < sampleDupTable.mapCapacity ∧
    optimalSize (candidateIndices sampleDupTable (to_array_index (.integer 1))) = 1 ∧
    ¬IsLargestQualifying (candidateIndices sampleDupTable (to_array_index (.integer 1)))
      (optimalSize (candidateIndices sampleDupTable (to_array_index (.integer 1)))) := by
  have hopt : optimalSize (candidateIndices sampleDupTable (to_array_index (.integer 1))) = 1 :=
    by decide
  refine ⟨?_, rfl, by decide, ?_, by decide, hopt, ?_⟩
  · have e1 : applyOp Table.new (.set (.string 0) (.boolean true)) =
        { entries := { array := [], map := [(.string 0, .boolean true)], mapCapacity := 1 },
          metatable := none } := by decide
    have r1 := e1 ▸ Reachable.step (.set (.string 0) (.boolean true)) Reachable.new (by decide)
    have e2 : applyOp
        { entries := { array := [], map := [(.string 0, .boolean true)], mapCapacity := 1 },
          metatable := none }
        (.set (.string 1) (.boolean true)) =
        { entries :=
            { array := [],
              map := [(.string 0, .boolean true), (.string 1, .boolean true)],
              mapCapacity := 2 },
          metatable := none } := by decide
    have r2 := e2 ▸ Reachable.step (.set (.string 1) (.boolean true)) r1 (by decide)
    have e3 : applyOp
        { entries :=
            { array := [],
              map := [(.string 0, .boolean true), (.string 1, .boolean true)],
              mapCapacity := 2 },
          metatable := none }
        (.set (.string 2) (.boolean true)) =
        { entries :=
            { array := [],
              map := [(.string 0, .boolean true), (.string 1, .boolean true),
                (.string 2, .boolean true)],
              mapCapacity := 4 },
          metatable := none } := by decide
    have r3 := e3 ▸ Reachable.step (.set (.string 2) (.boolean true)) r2 (by decide)
    have e4 : applyOp
        { entries :=
            { array := [],
              map := [(.string 0, .boolean true), (.string 1, .boolean true),
                (.string 2, .boolean true)],
              mapCapacity := 4 },
          metatable := none }
        (.set (.integer 1) (.boolean true)) =
        { entries := sampleDupTable, metatable := none } := by decide
    exact e4 ▸ Reachable.step (.set (.integer 1) (.boolean true)) r3 (by decide)
  · intro idx hidx
    rw [Option.mem_def] at hidx
    have : idx = 0 := by
      have h0 : to_array_index (.integer 1) = some 0 := by decide
      rw [h0] at hidx
      injection hidx with h2
      omega
    subst this
    simp [sampleDupTable]
  · intro hIs
    rw [hopt] at hIs
    rcases hIs with ⟨h0, _⟩ | ⟨k, hk, _, hall⟩
    · cases h0
    · have hk0 : k = 0 := by
        rcases Nat.eq_zero_or_pos k with hz | hpos
        · exact hz
        · exfalso
          have h2 : 1 < 2 ^ k := Nat.one_lt_two_pow_iff.mpr (by omega)
          omega
      subst hk0
      have hq1 : qualifies (candidateIndices sampleDupTable (to_array_index (.integer 1))) 1 =
          true := by decide
      have := hall 1 (by omega)
      rw [this] at hq1
      cases hq1

/-- C3 (amended): when `set` inserts a non-Nil value under a key **not
already present in the map** that fits neither the array part nor the map's
spare capacity, the rebalance chooses exactly the largest power of two
`2^k` for which strictly more than half of `2^k` array slots would be
occupied by the existing non-Nil array-eligible entries plus the new one.
If that size beats the current array length the array grows to at least
that size — newly covered slots are `Nil` unless the sweep or the insert
fills them — and every map entry that now fits moves to its array slot and
leaves the map; otherwise the array is untouched and the (non-empty) map's
capacity is doubled.  The original insert then succeeds.  The two size
hypotheses record that array length and entry count fit the host's `usize`
arithmetic. -/
theorem claim_C3_rebalance {t : TableEntries} {key value tk old : Value} {t2 : TableEntries}
    (hinv : TableInv t) (hw : key.wf)
    (hsz : t.array.length < 2 ^ 63)
    (hcnt : (candidateIndices t (to_array_index key)).length < 2 ^ 63)
    (hc : canonical_key key = .ok tk)
    (hfresh : ∀ p ∈ t.map, key_eq tk p.1 = false)
    (hvne : value ≠ .nil)
    (hnofit : ∀ idx ∈ to_array_index key, ¬idx < t.array.length)
    (hcap : ¬t.map.length < t.mapCapacity)
    (h : t.set key value = .ok (old, t2)) :
    IsLargestQualifying (candidateIndices t (to_array_index key))
      (optimalSize (candidateIndices t (to_array_index key))) ∧
    (optimalSize (candidateIndices t (to_array_index key)) > t.array.length →
      optimalSize (candidateIndices t (to_array_index key)) ≤ t2.array.length ∧
      (∀ p ∈ t.map, ∀ i, to_array_index p.1 = some i → i < t2.array.length →
        (∀ q ∈ t2.map, key_eq q.1 p.1 = false) ∧
        (key_eq tk p.1 = false → t2.array.getD i .nil = p.2)) ∧
      (∀ i, t.array.length ≤ i → i < t2.array.length → t2.array.getD i .nil ≠ .nil →
        (to_array_index key = some i ∧ t2.array.getD i .nil = value) ∨
        ∃ p ∈ t.map, to_array_index p.1 = some i ∧ t2.array.getD i .nil = p.2)) ∧
    (¬optimalSize (candidateIndices t (to_array_index key)) > t.array.length →
      t2.array = t.array ∧
      (1 ≤ t.map.length → t2.mapCapacity = 2 * t.map.length)) ∧
    t2.get key = value := by
  have hcidem := canonical_key_idem hc
  have hik : to_array_index tk = to_array_index key := (to_array_index_canonical hc).symm
  have hikbound : ∀ i ∈ to_array_index key, i < 2 ^ 63 := by
    intro i hi
    rw [Option.mem_def] at hi
    exact to_array_index_lt_of_wf hw hi
  have helems := candidateIndices_elems_lt hinv hsz hikbound
  have hmapne : ∀ i, to_array_index key = some i →
      ∀ p ∈ t.map, to_array_index p.1 ≠ some i := by
    intro i hi p hp hpi
    have hp1 : p.1 = .integer ((i : ℤ) + 1) :=
      canonical_of_array_index (hinv.keysCanonical p hp) hpi
    have htk : tk = .integer ((i : ℤ) + 1) := by
      apply canonical_of_array_index hcidem
      rw [hik, hi]
    have hkt : key_eq tk p.1 = true := by
      rw [htk, hp1]
      simp [key_eq]
    rw [hfresh p hp] at hkt
    cases hkt
  have hnd : (candidateIndices t (to_array_index key)).Nodup := by
    apply candidateIndices_nodup hinv
    intro i hi
    rw [Option.mem_def] at hi
    exact ⟨hnofit i (by rw [Option.mem_def]; exact hi), hmapne i hi⟩
  have hlarge := optimalSize_spec hnd helems hcnt
  rcases set_ok_elim h with ⟨idx, hidx, hlt, _, _⟩ | ⟨tk2, hc2, hnofit2, hslow⟩
  · exact absurd hlt (hnofit idx (by rw [Option.mem_def]; exact hidx))
  · rw [hc] at hc2
    injection hc2 with hc2
    subst hc2
    rcases setSlow_cases t (to_array_index key) tk value with
        ⟨hv, _⟩ | ⟨_, hcap2, _⟩ | ⟨_, _, harm⟩
    · exact absurd hv hvne
    · exact absurd hcap2 hcap
    · refine ⟨hlarge, ?_, ?_, get_after_set hinv h⟩
      · -- the growth branch
        intro hgt
        have hGdef := rebalanced_grow t (to_array_index key) hgt
        have hGarr : (rebalanced t (to_array_index key)).array =
            (moveToArray (t.array ++ List.replicate
              (optimalSize (candidateIndices t (to_array_index key)) - t.array.length)
              Value.nil) t.map).1 := by
          rw [hGdef]
        have hGmap : (rebalanced t (to_array_index key)).map =
            (moveToArray (t.array ++ List.replicate
              (optimalSize (candidateIndices t (to_array_index key)) - t.array.length)
              Value.nil) t.map).2 := by
          rw [hGdef]
        have hA1len : (t.array ++ List.replicate
            (optimalSize (candidateIndices t (to_array_index key)) - t.array.length)
            Value.nil).length = optimalSize (candidateIndices t (to_array_index key)) := by
          simp
          omega
        have hGlen : (rebalanced t (to_array_index key)).array.length =
            optimalSize (candidateIndices t (to_array_index key)) := by
          rw [hGarr, moveToArray_length, hA1len]
        have hGq : ∀ p ∈ t.map, to_array_index p.1 ≠ none →
            ∀ q ∈ (rebalanced t (to_array_index key)).map, ∀ i,
              to_array_index p.1 = some i →
              i < (rebalanced t (to_array_index key)).array.length →
              key_eq q.1 p.1 = false := by
          intro p hp _ q hq i hpi hilt
          rcases hb : key_eq q.1 p.1 with _ | _
          · rfl
          · exfalso
            have hqmem : q ∈ t.map := (rebalanced_map_sublist t (to_array_index key)).mem hq
            have hqeq : q.1 = p.1 :=
              eq_of_key_eq_canonical (hinv.keysCanonical q hqmem)
                (hinv.keysCanonical p hp) hb
            rw [hGmap] at hq
            have := moveToArray_map_beyond hq i (by rw [hqeq]; exact hpi)
            rw [← moveToArray_length (m := t.map), ← hGarr] at this
            exact this hilt
        have hGcont : ∀ p ∈ t.map, ∀ i, to_array_index p.1 = some i →
            i < (rebalanced t (to_array_index key)).array.length →
            (rebalanced t (to_array_index key)).array.getD i .nil = p.2 := by
          intro p hp i hpi hilt
          rw [hGarr]
          apply moveToArray_content _ t.map (map_indices_pairwise hinv) p hp i hpi
          rw [← moveToArray_length (m := t.map), ← hGarr]
          exact hilt
        have hGprov : ∀ i, t.array.length ≤ i →
            i < (rebalanced t (to_array_index key)).array.length →
            (rebalanced t (to_array_index key)).array.getD i .nil ≠ .nil →
            ∃ p ∈ t.map, to_array_index p.1 = some i ∧
              (rebalanced t (to_array_index key)).array.getD i .nil = p.2 := by
          intro i hige hilt hne
          rcases moveToArray_getD_cases (i := i)
              (t.array ++ List.replicate
                (optimalSize (candidateIndices t (to_array_index key)) - t.array.length)
                Value.nil) t.map with hcase | ⟨p, hp, hpi, hpv⟩
          · exfalso
            rw [append_replicate_getD_nil hige] at hcase
            rw [hGarr] at hne
            exact hne hcase
          · exact ⟨p, hp, hpi, by rw [hGarr]; exact hpv⟩
        rcases harm with ⟨idx, hik2, hlt2, heq⟩ | ⟨hnofit3, heq⟩ <;>
          rw [heq] at hslow <;> injection hslow with hold2 ht2 <;> subst ht2
        · -- re-attempt lands in the grown array
          refine ⟨?_, ?_, ?_⟩
          · simp only [List.length_set]
            omega
          · intro p hp i hpi hilt
            simp only [List.length_set] at hilt
            constructor
            · intro q hq
              exact hGq p hp (by rw [hpi]; simp) q hq i hpi hilt
            · intro _
              have hne : i ≠ idx := by
                intro he
                exact hmapne idx hik2 p hp (by rw [hpi, he])
              simp only
              rw [List.getD_eq_getElem?_getD, List.getElem?_set_ne (fun hz => hne hz.symm),
                ← List.getD_eq_getElem?_getD]
              exact hGcont p hp i hpi hilt
          · intro i hige hilt hne
            simp only [List.length_set] at hilt
            by_cases hii : i = idx
            · subst hii
              left
              refine ⟨hik2, ?_⟩
              simp only
              rw [List.getD_eq_getElem?_getD, List.getElem?_set_self hlt2]
              rfl
            · simp only at hne ⊢
              rw [List.getD_eq_getElem?_getD,
                List.getElem?_set_ne (fun hz => hii hz.symm),
                ← List.getD_eq_getElem?_getD] at hne ⊢
              exact .inr (hGprov i hige hilt hne)
        · -- re-attempt lands in the map
          refine ⟨?_, ?_, ?_⟩
          · simp only
            omega
          · intro p hp i hpi hilt
            simp only at hilt
            constructor
            · intro q hq
              simp only at hq
              rcases tableInsert_mem hq with hq1 | ⟨_, hq1 | ⟨w, hw2⟩⟩
              · exact hGq p hp (by rw [hpi]; simp) q hq1 i hpi hilt
              · rw [hq1]
                exact hfresh p hp
              · have := hGq p hp (by rw [hpi]; simp) (q.1, w) hw2 i hpi hilt
                simpa using this
            · intro _
              simp only
              exact hGcont p hp i hpi hilt
          · intro i hige hilt hne
            simp only at hilt hne ⊢
            exact .inr (hGprov i hige hilt hne)
      · -- the no-growth branch: capacity doubles
        intro hle
        have hGdef := rebalanced_nogrow t (to_array_index key) hle
        rcases harm with ⟨idx, hik2, hlt2, heq⟩ | ⟨hnofit3, heq⟩
        · exfalso
          rw [hGdef] at hlt2
          exact hnofit idx (by rw [Option.mem_def]; exact hik2) hlt2
        · rw [heq] at hslow
          injection hslow with hold2 ht2
          subst ht2
          have hfr : tableInsert (rebalanced t (to_array_index key)).map tk value =
              (none, t.map ++ [(tk, value)]) := by
            rw [hGdef]
            exact tableInsert_of_fresh
              (fun p hp => by rw [key_eq_symm]; exact hfresh p hp) value
          constructor
          · simp only
            rw [hGdef]
          · intro hlen1
            simp only
            rw [hfr, hGdef]
            simp
            omega

theorem claim_C3_rebalance_witness :
    TableEntries.set { array := [], map := [], mapCapacity := 0 }
        (.integer 1) (.boolean true) =
      .ok (.nil, { array := [.boolean true], map := [], mapCapacity := 0 }) ∧
    TableEntries.get { array := [.boolean true], map := [], mapCapacity := 0 }
      (.integer 1) = .boolean true :=
  ⟨by decide,
    (@claim_C3_rebalance { array := [], map := [], mapCapacity := 0 }
        (.integer 1) (.boolean true) (.integer 1) .nil
        { array := [.boolean true], map := [], mapCapacity := 0 }
        tableInv_new (by decide) (by decide) (by decide) (by decide)
        (by simp) (by decide) (by intro idx _; simp) (by decide)
        (by decide)).2.2.2⟩
